import Mathlib

/-!
Verification of the three-layer cache stack of the In-Memoria codebase
intelligence service: the bounded LRU cache (`src/utils/lru-cache.ts`),
the query result cache (`src/storage/query-cache.ts`) and the SQLite
statement cache, together with the cache key builder.

The TypeScript classes are shallowly embedded: each mutable object
becomes a state structure, each method a function from the state (plus
an explicit `now` timestamp standing for `Date.now()`) to a result and
a new state.  A JavaScript `Map` is modelled as an association list in
insertion order, since the source relies on the guarantee that `Map`
iteration order is insertion order.  Eviction callbacks (`onEvict`) are
modelled by returning the list of `(key, value)` pairs the method passed
to the callback, in invocation order.
-/

namespace InMemoria

/-! ## JavaScript `Map` model: association list in insertion order -/

/-- `Map.get`: the value bound to `k`, looking from the front. -/
def assocGet {α : Type} (m : List (String × α)) (k : String) : Option α :=
  match m with
  | [] => none
  | (k', v) :: rest => if k' = k then some v else assocGet rest k

/-- `Map.has`: whether `k` is bound. -/
def assocHas {α : Type} (m : List (String × α)) (k : String) : Bool :=
  (assocGet m k).isSome

/-- `Map.delete`: remove the binding of `k` (keys are unique in a `Map`,
so at most one entry is removed), preserving the order of the remaining
entries. -/
def assocDelete {α : Type} (m : List (String × α)) (k : String) : List (String × α) :=
  match m with
  | [] => []
  | p :: rest => if p.1 = k then assocDelete rest k else p :: assocDelete rest k

/-- `Map.set`: replace in place if the key is bound, otherwise append at
the end (most recent position). -/
def assocSet {α : Type} (m : List (String × α)) (k : String) (v : α) : List (String × α) :=
  if assocHas m k then m.map (fun p => if p.1 = k then (k, v) else p)
  else m ++ [(k, v)]

/-! ### Association list lemmas -/

theorem assocGet_eq_none_iff {α : Type} (m : List (String × α)) (k : String) :
    assocGet m k = none ↔ k ∉ m.map Prod.fst := by
  induction m with
  | nil => simp [assocGet]
  | cons p rest ih =>
    obtain ⟨k', v⟩ := p
    by_cases h : k' = k
    · subst h; simp [assocGet]
    · simp [assocGet, h, ih, Ne.symm h]

theorem assocHas_false_iff {α : Type} (m : List (String × α)) (k : String) :
    assocHas m k = false ↔ k ∉ m.map Prod.fst := by
  rw [← assocGet_eq_none_iff]
  unfold assocHas
  cases assocGet m k <;> simp

theorem assocHas_true_iff {α : Type} (m : List (String × α)) (k : String) :
    assocHas m k = true ↔ k ∈ m.map Prod.fst := by
  rw [← Bool.not_eq_false, assocHas_false_iff, not_not]

theorem assocGet_assocDelete {α : Type} (m : List (String × α)) (k k' : String) :
    assocGet (assocDelete m k) k' = if k' = k then none else assocGet m k' := by
  induction m with
  | nil => simp [assocGet, assocDelete]
  | cons p rest ih =>
    obtain ⟨k₀, v⟩ := p
    by_cases h₀ : k₀ = k
    · subst h₀
      rw [assocDelete, if_pos rfl, ih]
      by_cases h' : k' = k₀
      · simp [h']
      · have h'' : ¬ k₀ = k' := fun h => h' h.symm
        simp [h', h'', assocGet]
    · rw [assocDelete, if_neg h₀]
      by_cases h' : k₀ = k'
      · subst h'
        have hne : ¬ (k₀ = k) := h₀
        simp [assocGet, hne]
      · simp [assocGet, h', ih]

theorem assocDelete_length_le {α : Type} (m : List (String × α)) (k : String) :
    (assocDelete m k).length ≤ m.length := by
  induction m with
  | nil => simp [assocDelete]
  | cons p rest ih =>
    rw [assocDelete]
    by_cases h : p.1 = k
    · rw [if_pos h]; exact Nat.le_succ_of_le ih
    · rw [if_neg h]; simpa using ih

theorem assocDelete_length_lt {α : Type} (m : List (String × α)) (k : String)
    (h : assocHas m k = true) : (assocDelete m k).length < m.length := by
  induction m with
  | nil => simp [assocHas, assocGet] at h
  | cons p rest ih =>
    obtain ⟨k₀, v⟩ := p
    rw [assocDelete]
    by_cases h₀ : k₀ = k
    · rw [if_pos h₀]
      exact Nat.lt_succ_of_le (assocDelete_length_le rest k)
    · have h' : assocHas rest k = true := by
        simpa [assocHas, assocGet, h₀] using h
      rw [if_neg h₀]
      simpa using ih h'

theorem assocHas_assocDelete_false {α : Type} (m : List (String × α)) (k k' : String)
    (h : assocHas m k' = false) : assocHas (assocDelete m k) k' = false := by
  unfold assocHas at h ⊢
  rw [assocGet_assocDelete]
  by_cases hk : k' = k
  · simp [hk]
  · simpa [hk] using h

theorem assocSet_of_not_has {α : Type} (m : List (String × α)) (k : String) (v : α)
    (h : assocHas m k = false) : assocSet m k v = m ++ [(k, v)] := by
  simp [assocSet, h]

theorem assocSet_length_of_not_has {α : Type} (m : List (String × α)) (k : String) (v : α)
    (h : assocHas m k = false) : (assocSet m k v).length = m.length + 1 := by
  simp [assocSet_of_not_has m k v h]

/-- Deleting a key then re-setting it appends it at the end. -/
theorem assocSet_assocDelete {α : Type} (m : List (String × α)) (k : String) (v : α) :
    assocSet (assocDelete m k) k v = assocDelete m k ++ [(k, v)] := by
  apply assocSet_of_not_has
  unfold assocHas
  rw [assocGet_assocDelete]
  simp

theorem assocDelete_of_head {α : Type} (rest : List (String × α)) (k : String) (v : α)
    (hnd : k ∉ rest.map Prod.fst) : assocDelete ((k, v) :: rest) k = rest := by
  rw [assocDelete, if_pos rfl]
  induction rest with
  | nil => simp [assocDelete]
  | cons p r ih =>
    simp only [List.map_cons, List.mem_cons, not_or] at hnd
    rw [assocDelete, if_neg (fun h => hnd.1 h.symm), ih hnd.2]

theorem assocDelete_nodup_length {α : Type} (m : List (String × α)) (k : String)
    (hnd : (m.map Prod.fst).Nodup) (h : assocHas m k = true) :
    (assocDelete m k).length + 1 = m.length := by
  induction m with
  | nil => simp [assocHas, assocGet] at h
  | cons p rest ih =>
    obtain ⟨k₀, v⟩ := p
    simp only [List.map_cons, List.nodup_cons] at hnd
    by_cases h₀ : k₀ = k
    · subst h₀
      rw [assocDelete_of_head rest k₀ v hnd.1]
      simp
    · have h' : assocHas rest k = true := by
        simpa [assocHas, assocGet, h₀] using h
      rw [assocDelete, if_neg h₀]
      simpa using ih hnd.2 h'

theorem assocDelete_sublist {α : Type} (m : List (String × α)) (k : String) :
    (assocDelete m k).Sublist m := by
  induction m with
  | nil => simp [assocDelete]
  | cons p rest ih =>
    rw [assocDelete]
    by_cases h : p.1 = k
    · rw [if_pos h]; exact ih.cons p
    · rw [if_neg h]; exact ih.cons₂ p

theorem assocDelete_keys_nodup {α : Type} (m : List (String × α)) (k : String)
    (hnd : (m.map Prod.fst).Nodup) : ((assocDelete m k).map Prod.fst).Nodup :=
  hnd.sublist ((assocDelete_sublist m k).map Prod.fst)

/-! ## `LRUCache` (src/utils/lru-cache.ts)

State of an `LRUCache<T>` instance.  `entries` models the private
`Map<string, CacheEntry<T>>` in insertion order (oldest first); the
`maxSize`, `maxAge`, `hits` and `misses` fields mirror the class fields.
The `onEvict` callback is not part of the state: each method returns the
list of `(key, value)` pairs it passed to `onEvict`, in invocation
order. -/

/-- `CacheEntry<T>`: stored value plus the `Date.now()` timestamp written
by `set`. -/
structure CacheEntry (T : Type) where
  value : T
  timestamp : Nat
deriving DecidableEq, Repr

structure LRUState (T : Type) where
  entries : List (String × CacheEntry T)
  maxSize : Nat
  maxAge : Option Nat
  hits : Nat
  misses : Nat
deriving DecidableEq, Repr

namespace LRUCache

/-- Constructor body after the guard: empty map, zeroed statistics. -/
def init (T : Type) (maxSize : Nat) (maxAge : Option Nat) : LRUState T :=
  { entries := [], maxSize := maxSize, maxAge := maxAge, hits := 0, misses := 0 }

/-- The constructor: `if (options.maxSize < 1) throw new Error(...)`. -/
def create (T : Type) (maxSize : Nat) (maxAge : Option Nat) :
    Except String (LRUState T) :=
  if maxSize < 1 then .error "maxSize must be at least 1"
  else .ok (init T maxSize maxAge)

/-- `isExpired`: `if (!this.maxAge) return false; return Date.now() -
entry.timestamp > this.maxAge`.  A `maxAge` of `0` is falsy in
JavaScript, so it also means "never expire".  `Date.now()` is passed in
as `now`; the JS subtraction can be negative (then `> maxAge` is false
for positive `maxAge`), matching truncated `Nat` subtraction. -/
def isExpired {T : Type} (s : LRUState T) (now : Nat) (e : CacheEntry T) : Bool :=
  match s.maxAge with
  | none => false
  | some a => if a = 0 then false else decide (now - e.timestamp > a)

/-- `get(key)`: miss on absent key; expired entries are deleted and
counted as misses; on a hit the entry is re-inserted at the most
recently used position and `hits` is incremented. -/
def get {T : Type} (s : LRUState T) (now : Nat) (key : String) :
    Option T × LRUState T :=
  match assocGet s.entries key with
  | none => (none, { s with misses := s.misses + 1 })
  | some entry =>
    if isExpired s now entry then
      (none, { s with entries := assocDelete s.entries key, misses := s.misses + 1 })
    else
      (some entry.value,
       { s with entries := assocSet (assocDelete s.entries key) key entry,
                hits := s.hits + 1 })

/-- `set(key, value)`: an existing key is deleted first (re-added at the
end); otherwise, at capacity, the first (oldest) entry is removed and
reported to `onEvict`; finally the new entry is appended with the
current timestamp.  The second component is the list of `onEvict`
invocations. -/
def set {T : Type} (s : LRUState T) (now : Nat) (key : String) (v : T) :
    LRUState T × List (String × T) :=
  if assocHas s.entries key then
    ({ s with entries := assocSet (assocDelete s.entries key) key ⟨v, now⟩ }, [])
  else if s.entries.length ≥ s.maxSize then
    match s.entries.head? with
    | some (firstKey, firstEntry) =>
      ({ s with entries := assocSet (assocDelete s.entries firstKey) key ⟨v, now⟩ },
       [(firstKey, firstEntry.value)])
    | none =>
      -- unreachable when maxSize ≥ 1: a full cache is nonempty
      ({ s with entries := assocSet s.entries key ⟨v, now⟩ }, [])
  else
    ({ s with entries := assocSet s.entries key ⟨v, now⟩ }, [])

/-- `has(key)`: TTL-honouring existence check; deletes a discovered
expired entry but never promotes. -/
def has {T : Type} (s : LRUState T) (now : Nat) (key : String) :
    Bool × LRUState T :=
  match assocGet s.entries key with
  | none => (false, s)
  | some entry =>
    if isExpired s now entry then
      (false, { s with entries := assocDelete s.entries key })
    else (true, s)

/-- `delete(key)`: `Map.delete` semantics, returning whether the key was
present; statistics untouched, no `onEvict`. -/
def del {T : Type} (s : LRUState T) (key : String) : Bool × LRUState T :=
  (assocHas s.entries key, { s with entries := assocDelete s.entries key })

/-- `clear()`: drop all entries and reset statistics. -/
def clear {T : Type} (s : LRUState T) : LRUState T :=
  { s with entries := [], hits := 0, misses := 0 }

/-- `cleanExpired()`: with a (truthy) `maxAge`, removes every aged-out
entry and returns the removed count. -/
def cleanExpired {T : Type} (s : LRUState T) (now : Nat) : Nat × LRUState T :=
  match s.maxAge with
  | none => (0, s)
  | some a =>
    if a = 0 then (0, s)
    else
      let kept := s.entries.filter (fun p => decide (now - p.2.timestamp ≤ a))
      (s.entries.length - kept.length, { s with entries := kept })

end LRUCache

/-- One client-visible operation on an `LRUCache` instance, with the
`Date.now()` value at the time of the call. -/
inductive LRUOp (T : Type) where
  | get (now : Nat) (key : String)
  | set (now : Nat) (key : String) (v : T)
  | has (now : Nat) (key : String)
  | del (key : String)
  | clear
  | clean (now : Nat)

namespace LRUCache

/-- Run one operation: resulting state and the `onEvict` invocations it
performed (only `set` ever invokes the callback in the source). -/
def step {T : Type} (s : LRUState T) : LRUOp T → LRUState T × List (String × T)
  | .get now key => ((get s now key).2, [])
  | .set now key v => set s now key v
  | .has now key => ((has s now key).2, [])
  | .del key => ((del s key).2, [])
  | .clear => (clear s, [])
  | .clean now => ((cleanExpired s now).2, [])

/-- Run a sequence of operations. -/
def run {T : Type} (s : LRUState T) : List (LRUOp T) → LRUState T
  | [] => s
  | op :: ops => run (step s op).1 ops

end LRUCache

/-! ### Case equations for the LRU methods -/

theorem LRUCache.get_none {T : Type} (s : LRUState T) (now : Nat) (key : String)
    (h : assocGet s.entries key = none) :
    LRUCache.get s now key = (none, { s with misses := s.misses + 1 }) := by
  unfold LRUCache.get
  rw [h]

theorem LRUCache.get_expired {T : Type} (s : LRUState T) (now : Nat) (key : String)
    (entry : CacheEntry T) (h : assocGet s.entries key = some entry)
    (hex : LRUCache.isExpired s now entry = true) :
    LRUCache.get s now key =
      (none, { s with entries := assocDelete s.entries key, misses := s.misses + 1 }) := by
  unfold LRUCache.get
  rw [h]
  dsimp only
  rw [if_pos hex]

/-- A live hit re-inserts the entry at the most recently used (last)
position. -/
theorem LRUCache.get_hit {T : Type} (s : LRUState T) (now : Nat) (key : String)
    (entry : CacheEntry T) (h : assocGet s.entries key = some entry)
    (hex : LRUCache.isExpired s now entry = false) :
    LRUCache.get s now key =
      (some entry.value,
       { s with entries := assocDelete s.entries key ++ [(key, entry)],
                hits := s.hits + 1 }) := by
  unfold LRUCache.get
  rw [h]
  dsimp only
  rw [if_neg (by simp [hex]), assocSet_assocDelete]

theorem LRUCache.has_none {T : Type} (s : LRUState T) (now : Nat) (key : String)
    (h : assocGet s.entries key = none) :
    LRUCache.has s now key = (false, s) := by
  unfold LRUCache.has
  rw [h]

theorem LRUCache.has_expired {T : Type} (s : LRUState T) (now : Nat) (key : String)
    (entry : CacheEntry T) (h : assocGet s.entries key = some entry)
    (hex : LRUCache.isExpired s now entry = true) :
    LRUCache.has s now key = (false, { s with entries := assocDelete s.entries key }) := by
  unfold LRUCache.has
  rw [h]
  dsimp only
  rw [if_pos hex]

theorem LRUCache.has_live {T : Type} (s : LRUState T) (now : Nat) (key : String)
    (entry : CacheEntry T) (h : assocGet s.entries key = some entry)
    (hex : LRUCache.isExpired s now entry = false) :
    LRUCache.has s now key = (true, s) := by
  unfold LRUCache.has
  rw [h]
  dsimp only
  rw [if_neg (by simp [hex])]

theorem LRUCache.cleanExpired_none {T : Type} (s : LRUState T) (now : Nat)
    (h : s.maxAge = none) : LRUCache.cleanExpired s now = (0, s) := by
  unfold LRUCache.cleanExpired
  rw [h]

theorem LRUCache.cleanExpired_zero {T : Type} (s : LRUState T) (now : Nat)
    (h : s.maxAge = some 0) : LRUCache.cleanExpired s now = (0, s) := by
  unfold LRUCache.cleanExpired
  rw [h]
  dsimp only
  rw [if_pos rfl]

theorem LRUCache.cleanExpired_some {T : Type} (s : LRUState T) (now a : Nat)
    (h : s.maxAge = some a) (ha : a ≠ 0) :
    LRUCache.cleanExpired s now =
      (s.entries.length -
        (s.entries.filter (fun p => decide (now - p.2.timestamp ≤ a))).length,
       { s with entries := s.entries.filter (fun p => decide (now - p.2.timestamp ≤ a)) }) := by
  unfold LRUCache.cleanExpired
  rw [h]
  dsimp only
  rw [if_neg ha]

/-! ### Case equations for `set` -/

/-- `set` on an existing key: value replaced, entry promoted, no
eviction. -/
theorem LRUCache.set_of_has {T : Type} (s : LRUState T) (now : Nat) (key : String)
    (v : T) (h : assocHas s.entries key = true) :
    LRUCache.set s now key v =
      ({ s with entries := assocDelete s.entries key ++ [(key, ⟨v, now⟩)] }, []) := by
  unfold LRUCache.set
  rw [if_pos h, assocSet_assocDelete]

/-- `set` of a new key in a full cache: the oldest entry (head of the
iteration order) is removed and reported to `onEvict`, then the new
entry is appended. -/
theorem LRUCache.set_of_full {T : Type} (s : LRUState T) (now : Nat) (key : String)
    (v : T) (fk : String) (fe : CacheEntry T) (h : assocHas s.entries key = false)
    (hfull : s.entries.length ≥ s.maxSize) (hhead : s.entries.head? = some (fk, fe)) :
    LRUCache.set s now key v =
      ({ s with entries := assocSet (assocDelete s.entries fk) key ⟨v, now⟩ },
       [(fk, fe.value)]) := by
  unfold LRUCache.set
  rw [if_neg (by simp [h]), if_pos hfull, hhead]

/-- `set` of a new key below capacity: plain append, no eviction. -/
theorem LRUCache.set_of_room {T : Type} (s : LRUState T) (now : Nat) (key : String)
    (v : T) (h : assocHas s.entries key = false)
    (hroom : ¬ s.entries.length ≥ s.maxSize) :
    LRUCache.set s now key v =
      ({ s with entries := s.entries ++ [(key, ⟨v, now⟩)] }, []) := by
  unfold LRUCache.set
  rw [if_neg (by simp [h]), if_neg hroom, assocSet_of_not_has _ _ _ h]

/-! ### LRU invariants -/

/-- The two state invariants of the bounded cache: the key set of the
map is duplicate-free (a `Map` property) and the size never exceeds the
capacity. -/
abbrev LRUInv {T : Type} (s : LRUState T) : Prop :=
  ((s.entries.map Prod.fst).Nodup) ∧ s.entries.length ≤ s.maxSize

theorem keys_nodup_append {T : Type} (m : List (String × CacheEntry T)) (k : String)
    (v : CacheEntry T) (hnd : (m.map Prod.fst).Nodup) (h : assocHas m k = false) :
    (((m ++ [(k, v)]).map Prod.fst)).Nodup := by
  rw [assocHas_false_iff] at h
  simp only [List.map_append, List.map_cons, List.map_nil]
  rw [List.nodup_append]
  refine ⟨hnd, List.nodup_singleton k, ?_⟩
  intro a ha hak
  rw [List.mem_singleton] at hak
  exact h (hak ▸ ha)

theorem assocHas_head {T : Type} (s : List (String × CacheEntry T)) (fk : String)
    (fe : CacheEntry T) (hhead : s.head? = some (fk, fe)) :
    assocHas s fk = true := by
  cases s with
  | nil => simp at hhead
  | cons q r =>
    simp only [List.head?_cons, Option.some.injEq] at hhead
    subst hhead
    rw [assocHas_true_iff]
    simp

theorem step_preserves_inv {T : Type} (s : LRUState T) (op : LRUOp T)
    (hcap : 1 ≤ s.maxSize) (hinv : LRUInv s) :
    LRUInv (LRUCache.step s op).1 ∧ (LRUCache.step s op).1.maxSize = s.maxSize := by
  obtain ⟨hnd, hlen⟩ := hinv
  have hdel_inv : ∀ k, ((assocDelete s.entries k).map Prod.fst).Nodup ∧
      (assocDelete s.entries k).length ≤ s.entries.length :=
    fun k => ⟨assocDelete_keys_nodup _ _ hnd, assocDelete_length_le _ _⟩
  cases op with
  | get now key =>
    cases hg : assocGet s.entries key with
    | none =>
      rw [LRUCache.step, LRUCache.get_none s now key hg]
      exact ⟨⟨hnd, hlen⟩, rfl⟩
    | some entry =>
      by_cases hex : LRUCache.isExpired s now entry = true
      · rw [LRUCache.step, LRUCache.get_expired s now key entry hg hex]
        exact ⟨⟨(hdel_inv key).1, le_trans (hdel_inv key).2 hlen⟩, rfl⟩
      · rw [Bool.not_eq_true] at hex
        rw [LRUCache.step, LRUCache.get_hit s now key entry hg hex]
        have hhas : assocHas s.entries key = true := by simp [assocHas, hg]
        have hlt := assocDelete_length_lt s.entries key hhas
        have hnot : assocHas (assocDelete s.entries key) key = false := by
          unfold assocHas
          rw [assocGet_assocDelete]; simp
        refine ⟨⟨keys_nodup_append _ _ _ (hdel_inv key).1 hnot, ?_⟩, rfl⟩
        simp only [List.length_append, List.length_cons, List.length_nil]
        omega
  | set now key v =>
    by_cases hh : assocHas s.entries key = true
    · rw [LRUCache.step, LRUCache.set_of_has s now key v hh]
      have hlt := assocDelete_length_lt s.entries key hh
      have hnot : assocHas (assocDelete s.entries key) key = false := by
        unfold assocHas
        rw [assocGet_assocDelete]; simp
      refine ⟨⟨keys_nodup_append _ _ _ (hdel_inv key).1 hnot, ?_⟩, rfl⟩
      simp only [List.length_append, List.length_cons, List.length_nil]
      omega
    · rw [Bool.not_eq_true] at hh
      by_cases hfull : s.entries.length ≥ s.maxSize
      · cases hhead : s.entries.head? with
        | none =>
          rw [List.head?_eq_none_iff] at hhead
          rw [hhead] at hfull
          simp at hfull
          omega
        | some p =>
          obtain ⟨fk, fe⟩ := p
          rw [LRUCache.step, LRUCache.set_of_full s now key v fk fe hh hfull hhead]
          have hfk := assocHas_head s.entries fk fe hhead
          have hlt := assocDelete_length_lt s.entries fk hfk
          have hnot : assocHas (assocDelete s.entries fk) key = false :=
            assocHas_assocDelete_false _ _ _ hh
          rw [assocSet_of_not_has _ _ _ hnot]
          refine ⟨⟨keys_nodup_append _ _ _ (hdel_inv fk).1 hnot, ?_⟩, rfl⟩
          simp only [List.length_append, List.length_cons, List.length_nil]
          omega
      · rw [LRUCache.step, LRUCache.set_of_room s now key v hh hfull]
        refine ⟨⟨keys_nodup_append _ _ _ hnd hh, ?_⟩, rfl⟩
        simp only [List.length_append, List.length_cons, List.length_nil]
        omega
  | has now key =>
    cases hg : assocGet s.entries key with
    | none =>
      rw [LRUCache.step, LRUCache.has_none s now key hg]
      exact ⟨⟨hnd, hlen⟩, rfl⟩
    | some entry =>
      by_cases hex : LRUCache.isExpired s now entry = true
      · rw [LRUCache.step, LRUCache.has_expired s now key entry hg hex]
        exact ⟨⟨(hdel_inv key).1, le_trans (hdel_inv key).2 hlen⟩, rfl⟩
      · rw [Bool.not_eq_true] at hex
        rw [LRUCache.step, LRUCache.has_live s now key entry hg hex]
        exact ⟨⟨hnd, hlen⟩, rfl⟩
  | del key =>
    exact ⟨⟨(hdel_inv key).1, le_trans (hdel_inv key).2 hlen⟩, rfl⟩
  | clear =>
    exact ⟨⟨List.nodup_nil, Nat.zero_le _⟩, rfl⟩
  | clean now =>
    cases hma : s.maxAge with
    | none =>
      rw [LRUCache.step, LRUCache.cleanExpired_none s now hma]
      exact ⟨⟨hnd, hlen⟩, rfl⟩
    | some a =>
      by_cases ha : a = 0
      · subst ha
        rw [LRUCache.step, LRUCache.cleanExpired_zero s now hma]
        exact ⟨⟨hnd, hlen⟩, rfl⟩
      · rw [LRUCache.step, LRUCache.cleanExpired_some s now a hma ha]
        refine ⟨⟨hnd.sublist ((List.filter_sublist _).map Prod.fst), ?_⟩, rfl⟩
        exact le_trans (List.length_filter_le _ _) hlen

theorem run_preserves_inv {T : Type} (s : LRUState T) (ops : List (LRUOp T))
    (hcap : 1 ≤ s.maxSize) (hinv : LRUInv s) :
    LRUInv (LRUCache.run s ops) ∧ (LRUCache.run s ops).maxSize = s.maxSize := by
  induction ops generalizing s with
  | nil => exact ⟨hinv, rfl⟩
  | cons op ops ih =>
    obtain ⟨hinv', hms⟩ := step_preserves_inv s op hcap hinv
    rw [LRUCache.run]
    obtain ⟨h₁, h₂⟩ := ih (LRUCache.step s op).1 (hms ▸ hcap) hinv'
    exact ⟨h₁, h₂.trans hms⟩

/-- JavaScript `String.prototype.startsWith`. -/
def strStarts (s pfx : String) : Bool :=
  pfx.data.isPrefixOf s.data

/-! ## `QueryCache` (src/storage/query-cache.ts)

The value type parameter `U` stands for the defined JavaScript values of
the TypeScript parameter `T`; a stored value is modelled as `Option U`
with `none` playing the role of `undefined`, because the class stores
values of type `T` which may themselves be `undefined`, and `get`
returns `T | undefined` where `undefined` signals both "absent" and "the
stored value was `undefined`". -/

/-- The inner `CacheEntry<T>` of the query cache: `expiresAt` is a
timestamp, `none` modelling `Infinity` (stored when `ttlMs = 0`). -/
structure QCEntry (U : Type) where
  value : Option U
  expiresAt : Option Nat
deriving DecidableEq, Repr

/-- `Date.now() > entry.expiresAt` (false against `Infinity`). -/
def QCEntry.expiredAt {U : Type} (e : QCEntry U) (now : Nat) : Bool :=
  match e.expiresAt with
  | none => false
  | some t => decide (now > t)

/-- State of a `QueryCache<T>` instance: the wrapped `LRUCache` plus the
layer's own configuration and statistics counters.  The constructor
passes `onEvict: () => { this.evictions++; }` to the inner cache, so
`evictions` is bumped once per `onEvict` invocation reported by the
inner `set`. -/
structure QCState (U : Type) where
  inner : LRUState (QCEntry U)
  ttlMs : Nat
  refreshOnAccess : Bool
  hits : Nat
  misses : Nat
  expirations : Nat
  evictions : Nat
deriving DecidableEq, Repr

namespace QueryCache

/-- The constructor: inner LRU with the given `maxSize`, no `maxAge`,
and the eviction-counting callback. -/
def init (U : Type) (maxSize ttlMs : Nat) (refreshOnAccess : Bool) : QCState U :=
  { inner := LRUCache.init (QCEntry U) maxSize none,
    ttlMs := ttlMs, refreshOnAccess := refreshOnAccess,
    hits := 0, misses := 0, expirations := 0, evictions := 0 }

/-- `get(key)`: inner lookup; a present entry past its own TTL is
deleted, counted as a miss and as an expiration; a live entry may have
its TTL refreshed in place (`entry.expiresAt = Date.now() + this.ttlMs`,
an object mutation that does not move the entry), counts a hit and
returns the stored value. -/
def get {U : Type} (s : QCState U) (now : Nat) (key : String) :
    Option U × QCState U :=
  let r := LRUCache.get s.inner now key
  match r.1 with
  | none => (none, { s with inner := r.2, misses := s.misses + 1 })
  | some entry =>
    if s.ttlMs > 0 ∧ entry.expiredAt now then
      (none,
       { s with
          inner := (LRUCache.del r.2 key).2
          misses := s.misses + 1
          expirations := s.expirations + 1 })
    else
      let inner2 :=
        if s.refreshOnAccess ∧ s.ttlMs > 0 then
          { r.2 with entries := r.2.entries.map (fun p =>
              if p.1 = key then
                (p.1, { p.2 with value := { p.2.value with expiresAt := some (now + s.ttlMs) } })
              else p) }
        else r.2
      (entry.value, { s with inner := inner2, hits := s.hits + 1 })

/-- `set(key, value)`: wraps the value with `expiresAt = ttlMs > 0 ?
now + ttlMs : Infinity` and stores it through the inner `set`; the
`onEvict` invocations of the inner `set` each bump `evictions`. -/
def set {U : Type} (s : QCState U) (now : Nat) (key : String) (v : Option U) :
    QCState U :=
  let entry : QCEntry U :=
    { value := v, expiresAt := if s.ttlMs > 0 then some (now + s.ttlMs) else none }
  let r := LRUCache.set s.inner now key entry
  { s with inner := r.1, evictions := s.evictions + r.2.length }

/-- `getOrCompute(key, computeFn)`: one call, with the single
`computeFn` invocation modelled by its outcome `f` (an exception `E` or
a returned value).  Results: the value returned or exception propagated,
the resulting state, and whether `computeFn` was invoked.  The cached
value is returned when it is `!== undefined`; a successful computation
is stored via `set`; a throwing computation leaves the state exactly as
the initial `get` left it. -/
def getOrCompute {U E : Type} (s : QCState U) (now : Nat) (key : String)
    (f : Except E (Option U)) : Except E (Option U) × QCState U × Bool :=
  let r := get s now key
  match r.1 with
  | some v => (.ok (some v), r.2, false)
  | none =>
    match f with
    | .error e => (.error e, r.2, true)
    | .ok v => (.ok v, set r.2 now key v, true)

/-- `clear()`: clears the inner cache and resets this layer's
counters. -/
def clear {U : Type} (s : QCState U) : QCState U :=
  { s with
      inner := LRUCache.clear s.inner
      hits := 0
      misses := 0
      expirations := 0
      evictions := 0 }

/-- `invalidateByPrefix(prefix)`: collect, via the inner `forEach`
(which visits `entries` in insertion order), every live key starting
with the prefix, then delete each through the inner `delete`. -/
def invalidateByPfx {U : Type} (s : QCState U) (pfx : String) : QCState U :=
  let keysToDelete := (s.inner.entries.map Prod.fst).filter (fun k => strStarts k pfx)
  { s with inner := keysToDelete.foldl (fun st k => (LRUCache.del st k).2) s.inner }

end QueryCache

/-! ## `StatementCache` (SQLite statement cache)

The `better-sqlite3` database handle is modelled by the preparation
function `prepFn`: compiling the (normalized) SQL text either throws or
yields an opaque prepared-statement handle of type `H`. -/

/-- The JavaScript regex class `\s` on the characters relevant here
(space, tab, newline, carriage return, vertical tab, form feed; the
regex class also covers Unicode space characters, which behave the same
way and are omitted). -/
def isJsSpace (c : Char) : Bool :=
  c = ' ' ∨ c = '\t' ∨ c = '\n' ∨ c = '\r' ∨ c = '\x0b' ∨ c = '\x0c'

theorem dropWhileLengthLe {α : Type} (p : α → Bool) (l : List α) :
    (l.dropWhile p).length ≤ l.length := by
  induction l with
  | nil => simp
  | cons a l ih =>
    rw [List.dropWhile_cons]
    by_cases h : p a = true
    · rw [if_pos h]
      exact Nat.le_succ_of_le ih
    · rw [if_neg h]

/-- Scanner for `replace(/\s+/g, ' ')`: `prevSpace` records whether the
scanner is inside a whitespace run whose single replacement space has
already been emitted. -/
def collapseAux (prevSpace : Bool) : List Char → List Char
  | [] => []
  | c :: rest =>
    if isJsSpace c then
      if prevSpace then collapseAux true rest
      else ' ' :: collapseAux true rest
    else c :: collapseAux false rest

/-- `sql.replace(/\s+/g, ' ')`: every maximal whitespace run becomes a
single space. -/
def collapseWs (l : List Char) : List Char := collapseAux false l

theorem collapseAux_true (l : List Char) :
    collapseAux true l = collapseAux false (l.dropWhile isJsSpace) := by
  induction l with
  | nil => rfl
  | cons c rest ih =>
    by_cases hc : isJsSpace c = true
    · rw [List.dropWhile_cons, if_pos hc, ← ih]
      simp [collapseAux, hc]
    · rw [List.dropWhile_cons, if_neg hc]
      simp [collapseAux, hc]

/-- `.trim()`: remove leading and trailing whitespace. -/
def trimWs (l : List Char) : List Char :=
  ((l.dropWhile isJsSpace).reverse.dropWhile isJsSpace).reverse

/-- `normalizeSQL`: collapse whitespace runs, then trim. -/
def normalizeSQL (sql : String) : String :=
  ⟨trimWs (collapseWs sql.data)⟩

/-- State of a `StatementCache` instance: the wrapped `LRUCache` of
prepared handles plus the layer's own `hits`/`misses` counters. -/
structure StmtState (H : Type) where
  inner : LRUState H
  hits : Nat
  misses : Nat
deriving DecidableEq, Repr

namespace StatementCache

/-- The constructor: inner LRU with the given `maxSize` and no
`maxAge`. -/
def init (H : Type) (maxSize : Nat) : StmtState H :=
  { inner := LRUCache.init H maxSize none, hits := 0, misses := 0 }

/-- `prepare(sql)`: normalize, look up the normalized text in the inner
cache (a prepared-statement handle is a JS object, hence truthy, so the
`if (cached)` test is a presence test); on a hit bump `hits` and return
the handle; on a miss bump `misses`, compile through the database
(which may throw — then the error propagates with the miss already
counted and nothing stored), and on success store the handle under the
normalized key.  The `Bool` component reports whether the underlying
`db.prepare` was invoked. -/
def prepare {H E : Type} (prepFn : String → Except E H) (s : StmtState H)
    (now : Nat) (sql : String) : Except E H × StmtState H × Bool :=
  let n := normalizeSQL sql
  let r := LRUCache.get s.inner now n
  match r.1 with
  | some h => (.ok h, { s with inner := r.2, hits := s.hits + 1 }, false)
  | none =>
    let s1 : StmtState H := { s with inner := r.2, misses := s.misses + 1 }
    match prepFn n with
    | .error e => (.error e, s1, true)
    | .ok h =>
      let r2 := LRUCache.set s1.inner now n h
      (.ok h, { s1 with inner := r2.1 }, true)

/-- `clear()`: clear the inner cache and reset the layer's counters. -/
def clear {H : Type} (s : StmtState H) : StmtState H :=
  { s with inner := LRUCache.clear s.inner, hits := 0, misses := 0 }

end StatementCache

/-! ## Case equations for the query cache -/

theorem QueryCache.get_inner_none {U : Type} (s : QCState U) (now : Nat) (key : String)
    (h : (LRUCache.get s.inner now key).1 = none) :
    QueryCache.get s now key =
      (none, { s with inner := (LRUCache.get s.inner now key).2, misses := s.misses + 1 }) := by
  unfold QueryCache.get
  dsimp only
  rw [h]

theorem QueryCache.get_expired_eq {U : Type} (s : QCState U) (now : Nat) (key : String)
    (entry : QCEntry U) (h : (LRUCache.get s.inner now key).1 = some entry)
    (ht : 0 < s.ttlMs) (hex : entry.expiredAt now = true) :
    QueryCache.get s now key =
      (none,
       { s with
          inner := (LRUCache.del (LRUCache.get s.inner now key).2 key).2
          misses := s.misses + 1
          expirations := s.expirations + 1 }) := by
  unfold QueryCache.get
  dsimp only
  rw [h]
  dsimp only
  rw [if_pos ⟨ht, hex⟩]

theorem QueryCache.get_live_eq {U : Type} (s : QCState U) (now : Nat) (key : String)
    (entry : QCEntry U) (h : (LRUCache.get s.inner now key).1 = some entry)
    (hlive : ¬ (0 < s.ttlMs ∧ entry.expiredAt now = true)) :
    (QueryCache.get s now key).1 = entry.value ∧
    (QueryCache.get s now key).2.hits = s.hits + 1 ∧
    (QueryCache.get s now key).2.misses = s.misses ∧
    (QueryCache.get s now key).2.expirations = s.expirations ∧
    (QueryCache.get s now key).2.evictions = s.evictions := by
  unfold QueryCache.get
  dsimp only
  rw [h]
  dsimp only
  rw [if_neg hlive]
  by_cases hr : (s.refreshOnAccess = true ∧ 0 < s.ttlMs)
  · rw [if_pos hr]
    exact ⟨rfl, rfl, rfl, rfl, rfl⟩
  · rw [if_neg hr]
    exact ⟨rfl, rfl, rfl, rfl, rfl⟩

theorem QueryCache.getOrCompute_hit {U E : Type} (s : QCState U) (now : Nat)
    (key : String) (f : Except E (Option U)) (v : U)
    (h : (QueryCache.get s now key).1 = some v) :
    QueryCache.getOrCompute s now key f =
      (.ok (some v), (QueryCache.get s now key).2, false) := by
  unfold QueryCache.getOrCompute
  dsimp only
  rw [h]

theorem QueryCache.getOrCompute_miss_error {U E : Type} (s : QCState U) (now : Nat)
    (key : String) (e : E) (h : (QueryCache.get s now key).1 = none) :
    QueryCache.getOrCompute s now key (.error e) =
      (.error e, (QueryCache.get s now key).2, true) := by
  unfold QueryCache.getOrCompute
  dsimp only
  rw [h]

theorem QueryCache.getOrCompute_miss_ok {U E : Type} (s : QCState U) (now : Nat)
    (key : String) (v : Option U) (h : (QueryCache.get s now key).1 = none) :
    QueryCache.getOrCompute (E := E) s now key (.ok v) =
      (.ok v, QueryCache.set (QueryCache.get s now key).2 now key v, true) := by
  unfold QueryCache.getOrCompute
  dsimp only
  rw [h]

/-! ## Claim C1: capacity invariant -/

/-- C1.  Capacity invariant of the Bounded Ordered Cache: for every
capacity `maxSize ≥ 1` and every sequence of operations (sets
interleaved with any others) run from a fresh cache, `size() ≤ maxSize`
holds after every call; and inserting a new key into a full cache
removes exactly one entry before the insertion (one entry is evicted and
the size stays at capacity). -/
theorem c1_capacity_invariant (T : Type) (cap : Nat) (hcap : 1 ≤ cap) :
    (∀ (maxAge : Option Nat) (ops : List (LRUOp T)),
        (LRUCache.run (LRUCache.init T cap maxAge) ops).entries.length ≤ cap)
    ∧
    (∀ (s : LRUState T) (now : Nat) (key : String) (v : T),
        s.maxSize = cap →
        (s.entries.map Prod.fst).Nodup →
        assocHas s.entries key = false →
        s.entries.length = cap →
        (LRUCache.set s now key v).2.length = 1 ∧
        (LRUCache.set s now key v).1.entries.length = cap) := by
  constructor
  · intro maxAge ops
    have h := run_preserves_inv (LRUCache.init T cap maxAge) ops hcap
      ⟨List.nodup_nil, Nat.zero_le _⟩
    calc (LRUCache.run (LRUCache.init T cap maxAge) ops).entries.length
        ≤ (LRUCache.run (LRUCache.init T cap maxAge) ops).maxSize := h.1.2
      _ = cap := h.2
  · intro s now key v hms hnd hnew hfullsz
    have hfull : s.entries.length ≥ s.maxSize := by omega
    have hne : s.entries ≠ [] := by
      intro h
      rw [h] at hfullsz
      simp at hfullsz
      omega
    obtain ⟨p, rest, hps⟩ := List.exists_cons_of_ne_nil hne
    obtain ⟨fk, fe⟩ := p
    have hhead : s.entries.head? = some (fk, fe) := by rw [hps]; rfl
    rw [LRUCache.set_of_full s now key v fk fe hnew hfull hhead]
    refine ⟨rfl, ?_⟩
    have hfk := assocHas_head s.entries fk fe hhead
    have hnot : assocHas (assocDelete s.entries fk) key = false :=
      assocHas_assocDelete_false _ _ _ hnew
    have hdl := assocDelete_nodup_length s.entries fk hnd hfk
    simp only
    rw [assocSet_length_of_not_has _ _ _ hnot]
    omega

/-- Witness for C1 at capacity 2: a fresh cache keeps `size ≤ 2` under a
concrete operation sequence, and a `set` of a new key on a concrete full
cache evicts exactly one entry, keeping the size at 2. -/
theorem c1_capacity_invariant_witness :
    (LRUCache.run (LRUCache.init Nat 2 none)
        [.set 0 "a" 1, .set 1 "b" 2, .set 2 "c" 3, .get 3 "a"]).entries.length ≤ 2 ∧
    ((LRUCache.set
        { entries := [("a", ⟨1, 0⟩), ("b", ⟨2, 1⟩)], maxSize := 2, maxAge := none,
          hits := 0, misses := 0 } 5 "c" (3 : Nat)).2.length = 1 ∧
     (LRUCache.set
        { entries := [("a", ⟨1, 0⟩), ("b", ⟨2, 1⟩)], maxSize := 2, maxAge := none,
          hits := 0, misses := 0 } 5 "c" (3 : Nat)).1.entries.length = 2) :=
  ⟨(c1_capacity_invariant Nat 2 (by decide)).1 none _,
   (c1_capacity_invariant Nat 2 (by decide)).2 _ 5 "c" 3 rfl (by decide) (by decide) (by decide)⟩

/-! ## Claim C2: LRU promotion and eviction order -/

def c2State0 : LRUState Nat := LRUCache.init Nat 3 none
def c2State1 : LRUState Nat := (LRUCache.set c2State0 0 "a" 1).1
def c2State2 : LRUState Nat := (LRUCache.set c2State1 1 "b" 2).1
def c2State3 : LRUState Nat := (LRUCache.set c2State2 2 "c" 3).1
def c2State4 : LRUState Nat := (LRUCache.get c2State3 3 "a").2
def c2Step5 : LRUState Nat × List (String × Nat) := LRUCache.set c2State4 4 "d" 4

/-- C2.  LRU eviction order: a successful (live) `get` moves the entry
to the most-recently-used (last) position of the iteration order, and a
capacity eviction removes exactly the least-recently-touched (first)
entry.  Concretely, with capacity 3, after `set a, set b, set c`,
`get a`, `set d`, the evicted key is `b` (not `a` or `c`): `has('a')` is
true and `has('b')` is false. -/
theorem c2_lru_eviction_order :
    (∀ (T : Type) (s : LRUState T) (now : Nat) (key : String) (entry : CacheEntry T),
        assocGet s.entries key = some entry →
        LRUCache.isExpired s now entry = false →
        (LRUCache.get s now key).1 = some entry.value ∧
        (LRUCache.get s now key).2.entries = assocDelete s.entries key ++ [(key, entry)])
    ∧
    (c2Step5.2 = [("b", 2)] ∧
     (LRUCache.has c2Step5.1 5 "a").1 = true ∧
     (LRUCache.has c2Step5.1 5 "b").1 = false ∧
     (LRUCache.has c2Step5.1 5 "c").1 = true ∧
     (LRUCache.has c2Step5.1 5 "d").1 = true) := by
  constructor
  · intro T s now key entry hg hex
    rw [LRUCache.get_hit s now key entry hg hex]
    exact ⟨rfl, rfl⟩
  · refine ⟨by decide, by decide, by decide, by decide, by decide⟩

/-- Witness for C2: the promotion clause applied to a concrete cache
state (the state just before `get a` in the scenario). -/
theorem c2_lru_eviction_order_witness :
    (LRUCache.get c2State3 3 "a").1 = some (1 : Nat) ∧
    (LRUCache.get c2State3 3 "a").2.entries =
      assocDelete c2State3.entries "a" ++ [("a", ⟨1, 0⟩)] :=
  c2_lru_eviction_order.1 Nat c2State3 3 "a" ⟨1, 0⟩ (by decide) (by decide)

/-! ## Claim C5: `onEvict` is invoked only for capacity evictions -/

/-- C5.  The `onEvict` callback is invoked only for capacity-driven
removals: `get`, `has`, `delete`, `clear` and `cleanExpired` never
invoke it (including on the TTL expiries they perform), `set` on an
already-present key never invokes it (even in a full cache), and `set`
of a new key at capacity invokes it exactly once, with the evicted
(oldest) entry. -/
theorem c5_onEvict_only_capacity (T : Type) (s : LRUState T) (now : Nat)
    (key : String) (v : T) :
    (LRUCache.step s (.get now key)).2 = [] ∧
    (LRUCache.step s (.has now key)).2 = [] ∧
    (LRUCache.step s (.del key)).2 = [] ∧
    (LRUCache.step s .clear).2 = [] ∧
    (LRUCache.step s (.clean now)).2 = [] ∧
    (assocHas s.entries key = true → (LRUCache.set s now key v).2 = []) ∧
    (assocHas s.entries key = false → s.entries.length < s.maxSize →
        (LRUCache.set s now key v).2 = []) ∧
    (∀ (fk : String) (fe : CacheEntry T),
        assocHas s.entries key = false → s.entries.length ≥ s.maxSize →
        s.entries.head? = some (fk, fe) →
        (LRUCache.set s now key v).2 = [(fk, fe.value)]) := by
  refine ⟨rfl, rfl, rfl, rfl, rfl, ?_, ?_, ?_⟩
  · intro h
    rw [LRUCache.set_of_has s now key v h]
  · intro h hroom
    rw [LRUCache.set_of_room s now key v h (by omega)]
  · intro fk fe h hfull hhead
    rw [LRUCache.set_of_full s now key v fk fe h hfull hhead]

def c5FullState : LRUState Nat :=
  { entries := [("x", ⟨10, 0⟩), ("y", ⟨20, 1⟩)], maxSize := 2, maxAge := none,
    hits := 0, misses := 0 }

/-- Witness for C5 on a concrete full cache: updating the existing key
`"y"` evicts nothing, and inserting the new key `"z"` evicts exactly the
oldest entry `("x", 10)`. -/
theorem c5_onEvict_only_capacity_witness :
    (LRUCache.step c5FullState (.get 2 "x")).2 = [] ∧
    (LRUCache.set c5FullState 2 "y" (25 : Nat)).2 = [] ∧
    (LRUCache.set c5FullState 2 "z" (30 : Nat)).2 = [("x", 10)] :=
  ⟨(c5_onEvict_only_capacity Nat c5FullState 2 "y" 25).1,
   (c5_onEvict_only_capacity Nat c5FullState 2 "y" 25).2.2.2.2.2.1 (by decide),
   (c5_onEvict_only_capacity Nat c5FullState 2 "z" 30).2.2.2.2.2.2.2 "x" ⟨10, 0⟩
     (by decide) (by decide) (by decide)⟩

/-! ## Claim C3: query cache TTL expiry -/

/-- C3.  Query Result Cache TTL expiry: with `ttlMs > 0`, an entry
observed with `now > expiresAt` is never returned by `get`; that `get`
deletes the entry, increments the `expirations` counter by 1, counts a
miss, leaves `hits` untouched and leaves the capacity-`evictions`
counter untouched (expirations are counted separately from evictions);
a `get` at or before the expiry time returns the stored value and counts
a hit.  The hypotheses `s.inner.maxAge = none` record that the query
cache constructs its inner LRU cache without a `maxAge`. -/
theorem c3_ttl_expiry (U : Type) :
    (∀ (s : QCState U) (now : Nat) (key : String) (ce : CacheEntry (QCEntry U)) (t : Nat),
        s.inner.maxAge = none →
        0 < s.ttlMs →
        assocGet s.inner.entries key = some ce →
        ce.value.expiresAt = some t →
        now > t →
        (QueryCache.get s now key).1 = none ∧
        assocGet (QueryCache.get s now key).2.inner.entries key = none ∧
        (QueryCache.get s now key).2.expirations = s.expirations + 1 ∧
        (QueryCache.get s now key).2.misses = s.misses + 1 ∧
        (QueryCache.get s now key).2.hits = s.hits ∧
        (QueryCache.get s now key).2.evictions = s.evictions)
    ∧
    (∀ (s : QCState U) (now : Nat) (key : String) (ce : CacheEntry (QCEntry U)) (t : Nat),
        s.inner.maxAge = none →
        assocGet s.inner.entries key = some ce →
        ce.value.expiresAt = some t →
        now ≤ t →
        (QueryCache.get s now key).1 = ce.value.value ∧
        (QueryCache.get s now key).2.hits = s.hits + 1) := by
  constructor
  · intro s now key ce t hma httl hg het hnow
    have hex : LRUCache.isExpired s.inner now ce = false := by
      unfold LRUCache.isExpired
      rw [hma]
    have h1 : (LRUCache.get s.inner now key).1 = some ce.value := by
      rw [LRUCache.get_hit s.inner now key ce hg hex]
    have hexp : ce.value.expiredAt now = true := by
      unfold QCEntry.expiredAt
      rw [het]
      simpa using hnow
    rw [QueryCache.get_expired_eq s now key ce.value h1 httl hexp]
    refine ⟨rfl, ?_, rfl, rfl, rfl, rfl⟩
    simp [LRUCache.del, assocGet_assocDelete]
  · intro s now key ce t hma hg het hnow
    have hex : LRUCache.isExpired s.inner now ce = false := by
      unfold LRUCache.isExpired
      rw [hma]
    have h1 : (LRUCache.get s.inner now key).1 = some ce.value := by
      rw [LRUCache.get_hit s.inner now key ce hg hex]
    have hlive : ¬ (0 < s.ttlMs ∧ ce.value.expiredAt now = true) := by
      rintro ⟨-, hexp⟩
      unfold QCEntry.expiredAt at hexp
      rw [het] at hexp
      simp at hexp
      omega
    have h := QueryCache.get_live_eq s now key ce.value h1 hlive
    exact ⟨h.1, h.2.1⟩

def c3State : QCState String :=
  QueryCache.set (QueryCache.init String 100 50 false) 0 "k" (some "v")

/-- Witness for C3: `ttlMs = 50`, `set k v` at time 0; `get` at time 0
returns the value; `get` at time 100 observes `100 > 50`, returns
nothing, deletes the entry and bumps `expirations` to 1 with
`evictions` still 0. -/
theorem c3_ttl_expiry_witness :
    ((QueryCache.get c3State 100 "k").1 = none ∧
     assocGet (QueryCache.get c3State 100 "k").2.inner.entries "k" = none ∧
     (QueryCache.get c3State 100 "k").2.expirations = 1 ∧
     (QueryCache.get c3State 100 "k").2.misses = 1 ∧
     (QueryCache.get c3State 100 "k").2.hits = 0 ∧
     (QueryCache.get c3State 100 "k").2.evictions = 0) ∧
    ((QueryCache.get c3State 0 "k").1 = some "v" ∧
     (QueryCache.get c3State 0 "k").2.hits = 1) :=
  ⟨(c3_ttl_expiry String).1 c3State 100 "k" ⟨⟨some "v", some 50⟩, 0⟩ 50
      rfl (by decide) (by decide) rfl (by decide),
   (c3_ttl_expiry String).2 c3State 0 "k" ⟨⟨some "v", some 50⟩, 0⟩ 50
      rfl (by decide) rfl (by decide)⟩

/-! ## Claim C4: `getOrCompute` failure atomicity and retry -/

def c4State : QCState Nat := QueryCache.init Nat 10 0 false

/-- C4 counterexample.  The claim states that when `computeFn` throws,
"cache state is unchanged".  On a fresh cache, a `getOrCompute` whose
computation throws does propagate the error unchanged and writes no
entry, but the resulting state differs from the initial one: the
internal `get` has already counted a miss. -/
theorem c4_counterexample :
    (QueryCache.getOrCompute (E := String) c4State 0 "k" (.error "boom")).1 =
      .error "boom" ∧
    (QueryCache.getOrCompute (E := String) c4State 0 "k" (.error "boom")).2.1 ≠
      c4State ∧
    (QueryCache.getOrCompute (E := String) c4State 0 "k" (.error "boom")).2.1.misses =
      c4State.misses + 1 := by
  exact ⟨rfl, by decide, by decide⟩

/-- C4 (amended).  If `computeFn` throws, the error propagates to the
caller unchanged, `computeFn` was invoked, and no entry is written: the
resulting state is exactly the state left by the internal `get` (so for
a key that was absent the entry map is unchanged — only the miss
accounting moves).  A subsequent `getOrCompute` for the same key invokes
`computeFn` again: if it throws on the first call and succeeds on the
second, it is invoked on both calls and the second call returns the
success value. -/
theorem c4_failure_atomicity_amended (U E : Type) :
    (∀ (s : QCState U) (now : Nat) (key : String) (e : E),
        (QueryCache.get s now key).1 = none →
        QueryCache.getOrCompute s now key (.error e) =
          (.error e, (QueryCache.get s now key).2, true))
    ∧
    (∀ (s : QCState U) (now : Nat) (key : String) (e : E),
        assocGet s.inner.entries key = none →
        (QueryCache.getOrCompute s now key (.error e)).1 = .error e ∧
        (QueryCache.getOrCompute s now key (.error e)).2.1.inner.entries =
          s.inner.entries ∧
        (QueryCache.getOrCompute s now key (.error e)).2.2 = true)
    ∧
    (∀ (s : QCState U) (now now2 : Nat) (key : String) (e : E) (v : Option U),
        assocGet s.inner.entries key = none →
        (QueryCache.getOrCompute s now key (.error e)).2.2 = true ∧
        (QueryCache.getOrCompute (E := E)
            (QueryCache.getOrCompute s now key (.error e)).2.1 now2 key (.ok v)).1 =
          .ok v ∧
        (QueryCache.getOrCompute (E := E)
            (QueryCache.getOrCompute s now key (.error e)).2.1 now2 key (.ok v)).2.2 =
          true) := by
  have absent_get : ∀ (s : QCState U) (now : Nat) (key : String),
      assocGet s.inner.entries key = none →
      (QueryCache.get s now key).1 = none ∧
      (QueryCache.get s now key).2.inner.entries = s.inner.entries := by
    intro s now key hg
    have hinner := LRUCache.get_none s.inner now key hg
    have h1 : (LRUCache.get s.inner now key).1 = none := by rw [hinner]
    have hqc := QueryCache.get_inner_none s now key h1
    rw [hqc, hinner]
    exact ⟨rfl, rfl⟩
  refine ⟨?_, ?_, ?_⟩
  · intro s now key e hq
    exact QueryCache.getOrCompute_miss_error s now key e hq
  · intro s now key e hg
    obtain ⟨hq1, hq2⟩ := absent_get s now key hg
    rw [QueryCache.getOrCompute_miss_error s now key e hq1]
    exact ⟨rfl, hq2, rfl⟩
  · intro s now now2 key e v hg
    obtain ⟨hq1, hq2⟩ := absent_get s now key hg
    rw [QueryCache.getOrCompute_miss_error s now key e hq1]
    have hg2 : assocGet ((QueryCache.get s now key).2).inner.entries key = none := by
      rw [hq2]; exact hg
    obtain ⟨hr1, _⟩ := absent_get (QueryCache.get s now key).2 now2 key hg2
    rw [QueryCache.getOrCompute_miss_ok (QueryCache.get s now key).2 now2 key v hr1]
    exact ⟨rfl, rfl, rfl⟩

/-- Witness for C4 (amended): on a fresh cache, a throwing computation
propagates `"boom"`, leaves the entry map empty, and a second call with
a succeeding computation is invoked and returns `some 5`. -/
theorem c4_failure_atomicity_amended_witness :
    ((QueryCache.getOrCompute (E := String) c4State 0 "k" (.error "boom")).1 =
      .error "boom" ∧
     (QueryCache.getOrCompute (E := String) c4State 0 "k" (.error "boom")).2.1.inner.entries =
      c4State.inner.entries ∧
     (QueryCache.getOrCompute (E := String) c4State 0 "k" (.error "boom")).2.2 = true) ∧
    ((QueryCache.getOrCompute (E := String) c4State 0 "k" (.error "boom")).2.2 = true ∧
     (QueryCache.getOrCompute (E := String)
        (QueryCache.getOrCompute (E := String) c4State 0 "k" (.error "boom")).2.1
        1 "k" (.ok (some 5))).1 = .ok (some 5) ∧
     (QueryCache.getOrCompute (E := String)
        (QueryCache.getOrCompute (E := String) c4State 0 "k" (.error "boom")).2.1
        1 "k" (.ok (some 5))).2.2 = true) :=
  ⟨(c4_failure_atomicity_amended Nat String).2.1 c4State 0 "k" "boom" rfl,
   (c4_failure_atomicity_amended Nat String).2.2 c4State 0 1 "k" "boom" (some 5) rfl⟩

/-! ## Claim C10: `undefined` is not memoized -/

/-- C10.  The Query Result Cache does not memoize the value `undefined`:
for every key whose stored (live) entry holds the value `undefined`
(modelled as `none`), a direct `get` counts a hit yet returns a result
indistinguishable from absence, and `getOrCompute` invokes `computeFn`
even though an entry for the key is present. -/
theorem c10_undefined_not_memoized (U E : Type) (s : QCState U) (now : Nat)
    (key : String) (ce : CacheEntry (QCEntry U)) (f : Except E (Option U)) :
    s.inner.maxAge = none →
    assocGet s.inner.entries key = some ce →
    ce.value.value = none →
    ¬ (0 < s.ttlMs ∧ ce.value.expiredAt now = true) →
    (QueryCache.get s now key).1 = none ∧
    (QueryCache.get s now key).2.hits = s.hits + 1 ∧
    (QueryCache.getOrCompute s now key f).2.2 = true := by
  intro hma hg hval hlive
  have hex : LRUCache.isExpired s.inner now ce = false := by
    unfold LRUCache.isExpired
    rw [hma]
  have h1 : (LRUCache.get s.inner now key).1 = some ce.value := by
    rw [LRUCache.get_hit s.inner now key ce hg hex]
  have h := QueryCache.get_live_eq s now key ce.value h1 hlive
  have hnone : (QueryCache.get s now key).1 = none := by rw [h.1, hval]
  refine ⟨hnone, h.2.1, ?_⟩
  cases f with
  | error e => rw [QueryCache.getOrCompute_miss_error s now key e hnone]
  | ok v => rw [QueryCache.getOrCompute_miss_ok s now key v hnone]

def c10State : QCState Nat :=
  QueryCache.set (QueryCache.init Nat 100 0 false) 0 "k" none

/-- Witness for C10: a cache holding `undefined` under `"k"`; `get`
returns nothing yet counts a hit, and `getOrCompute` invokes its
computation. -/
theorem c10_undefined_not_memoized_witness :
    (QueryCache.get c10State 1 "k").1 = none ∧
    (QueryCache.get c10State 1 "k").2.hits = c10State.hits + 1 ∧
    (QueryCache.getOrCompute (E := String) c10State 1 "k" (.ok (some 7))).2.2 = true :=
  c10_undefined_not_memoized Nat String c10State 1 "k" ⟨⟨none, none⟩, 0⟩
    (.ok (some 7)) rfl (by decide) rfl (by decide)

/-! ## Claim C6: prefix invalidation scope and frame -/

theorem assocGet_foldl_del {T : Type} (ks : List String) (st : LRUState T) (key : String) :
    assocGet (ks.foldl (fun st k => (LRUCache.del st k).2) st).entries key =
      if key ∈ ks then none else assocGet st.entries key := by
  induction ks generalizing st with
  | nil => simp
  | cons k ks ih =>
    rw [List.foldl_cons, ih]
    by_cases hk : key ∈ ks
    · simp [hk]
    · rw [if_neg hk]
      rw [show (LRUCache.del st k).2.entries = assocDelete st.entries k from rfl,
        assocGet_assocDelete]
      by_cases hkk : key = k
      · simp [hkk]
      · simp [hkk, hk]

/-- C6.  Prefix invalidation scope and frame: `invalidateByPrefix(pfx)`
removes exactly the live entries whose key starts with `pfx` and leaves
every other entry bound to its unchanged value (the operation is a pure
state-to-state function, complete on return).  Concretely, with keys
`"p:/x:a"`, `"p:/x:b"`, `"p:/y:a"`, invalidating `"p:/x"` removes the
first two and leaves the third with its value. -/
theorem c6_invalidate_by_prefix_scope (U : Type) :
    (∀ (s : QCState U) (pfx key : String),
        assocGet (QueryCache.invalidateByPfx s pfx).inner.entries key =
          (if strStarts key pfx then none else assocGet s.inner.entries key))
    ∧
    (let s :=
      QueryCache.set (QueryCache.set (QueryCache.set
        (QueryCache.init Nat 100 0 false) 0 "p:/x:a" (some 1)) 1 "p:/x:b" (some 2))
        2 "p:/y:a" (some 3)
     let s' := QueryCache.invalidateByPfx s "p:/x"
     assocGet s'.inner.entries "p:/x:a" = none ∧
     assocGet s'.inner.entries "p:/x:b" = none ∧
     assocGet s'.inner.entries "p:/y:a" = some ⟨⟨some 3, none⟩, 2⟩ ∧
     s'.inner.entries.length = 1) := by
  constructor
  · intro s pfx key
    unfold QueryCache.invalidateByPfx
    dsimp only
    rw [assocGet_foldl_del]
    by_cases hs : strStarts key pfx = true
    · rw [if_pos hs]
      by_cases hmem : key ∈ s.inner.entries.map Prod.fst
      · rw [if_pos (List.mem_filter.2 ⟨hmem, hs⟩)]
      · rw [if_neg (fun hin => hmem (List.mem_filter.1 hin).1),
          (assocGet_eq_none_iff _ _).2 hmem]
    · rw [if_neg hs]
      have hnot : key ∉ (s.inner.entries.map Prod.fst).filter (fun k => strStarts k pfx) :=
        fun hin => hs (List.mem_filter.1 hin).2
      rw [if_neg hnot]
  · exact ⟨by decide, by decide, by decide, by decide⟩

/-- Witness for C6: the scope equation applied at a concrete cache and
prefix, for one removed key and one untouched key. -/
theorem c6_invalidate_by_prefix_scope_witness :
    (assocGet (QueryCache.invalidateByPfx
        (QueryCache.set (QueryCache.init Nat 10 0 false) 0 "p:/x:a" (some 1))
        "p:/x").inner.entries "p:/x:a" =
      (if strStarts "p:/x:a" "p:/x" then none
       else assocGet (QueryCache.set (QueryCache.init Nat 10 0 false) 0 "p:/x:a"
          (some 1)).inner.entries "p:/x:a")) ∧
    (assocGet (QueryCache.invalidateByPfx
        (QueryCache.set (QueryCache.init Nat 10 0 false) 0 "p:/x:a" (some 1))
        "p:/x").inner.entries "q" =
      (if strStarts "q" "p:/x" then none
       else assocGet (QueryCache.set (QueryCache.init Nat 10 0 false) 0 "p:/x:a"
          (some 1)).inner.entries "q")) :=
  ⟨(c6_invalidate_by_prefix_scope Nat).1 _ "p:/x" "p:/x:a",
   (c6_invalidate_by_prefix_scope Nat).1 _ "p:/x" "q"⟩

/-! ## Case equations for `StatementCache.prepare` -/

theorem StatementCache.prepare_hit {H E : Type} (prepFn : String → Except E H)
    (s : StmtState H) (now : Nat) (sql : String) (h : H)
    (hg : (LRUCache.get s.inner now (normalizeSQL sql)).1 = some h) :
    StatementCache.prepare prepFn s now sql =
      (.ok h,
       { s with inner := (LRUCache.get s.inner now (normalizeSQL sql)).2,
                hits := s.hits + 1 },
       false) := by
  unfold StatementCache.prepare
  dsimp only
  rw [hg]

theorem StatementCache.prepare_miss_error {H E : Type} (prepFn : String → Except E H)
    (s : StmtState H) (now : Nat) (sql : String) (e : E)
    (hg : (LRUCache.get s.inner now (normalizeSQL sql)).1 = none)
    (hp : prepFn (normalizeSQL sql) = .error e) :
    StatementCache.prepare prepFn s now sql =
      (.error e,
       { s with inner := (LRUCache.get s.inner now (normalizeSQL sql)).2,
                misses := s.misses + 1 },
       true) := by
  unfold StatementCache.prepare
  dsimp only
  rw [hg]
  dsimp only
  rw [hp]

theorem StatementCache.prepare_miss_ok {H E : Type} (prepFn : String → Except E H)
    (s : StmtState H) (now : Nat) (sql : String) (h : H)
    (hg : (LRUCache.get s.inner now (normalizeSQL sql)).1 = none)
    (hp : prepFn (normalizeSQL sql) = .ok h) :
    StatementCache.prepare prepFn s now sql =
      (.ok h,
       { s with
          inner := (LRUCache.set (LRUCache.get s.inner now (normalizeSQL sql)).2
            now (normalizeSQL sql) h).1
          misses := s.misses + 1 },
       true) := by
  unfold StatementCache.prepare
  dsimp only
  rw [hg]
  dsimp only
  rw [hp]

/-! ## Claim C7: failed preparation accounting -/

def c7State : StmtState Nat := StatementCache.init Nat 10

/-- C7 counterexample.  The claim states that a failed preparation
leaves the Statement Cache's own `hits` and `misses` counters unchanged.
In the source, `this.misses++` executes before `this.db.prepare`, so a
preparation failure on a fresh cache propagates the error and stores
nothing, but leaves `misses = 1`, not `0`. -/
theorem c7_counterexample :
    (StatementCache.prepare (fun _ => (.error "syntax error" : Except String Nat))
        c7State 0 "BAD SQL").1 = .error "syntax error" ∧
    (StatementCache.prepare (fun _ => (.error "syntax error" : Except String Nat))
        c7State 0 "BAD SQL").2.1.misses = c7State.misses + 1 ∧
    c7State.misses = 0 :=
  ⟨rfl, by decide, rfl⟩

/-- C7 (amended).  For every SQL text whose normalized form is not
cached and whose underlying preparation throws, `prepare` propagates the
error to the caller, stores nothing in the cache (the entry map is
unchanged), and leaves the Statement Cache's own `hits` counter
unchanged — but it does increment the cache's own `misses` counter by
one, because the miss is counted before the preparation is attempted. -/
theorem c7_failed_preparation_amended (H E : Type) (prepFn : String → Except E H)
    (s : StmtState H) (now : Nat) (sql : String) (e : E) :
    assocGet s.inner.entries (normalizeSQL sql) = none →
    prepFn (normalizeSQL sql) = .error e →
    (StatementCache.prepare prepFn s now sql).1 = .error e ∧
    (StatementCache.prepare prepFn s now sql).2.1.inner.entries = s.inner.entries ∧
    (StatementCache.prepare prepFn s now sql).2.1.hits = s.hits ∧
    (StatementCache.prepare prepFn s now sql).2.1.misses = s.misses + 1 ∧
    (StatementCache.prepare prepFn s now sql).2.2 = true := by
  intro hg hp
  have hinner := LRUCache.get_none s.inner now (normalizeSQL sql) hg
  have h1 : (LRUCache.get s.inner now (normalizeSQL sql)).1 = none := by rw [hinner]
  rw [StatementCache.prepare_miss_error prepFn s now sql e h1 hp, hinner]
  exact ⟨rfl, rfl, rfl, rfl, rfl⟩

/-- Witness for C7 (amended) on a fresh cache and an always-failing
preparation function. -/
theorem c7_failed_preparation_amended_witness :
    (StatementCache.prepare (fun _ => (.error "syntax error" : Except String Nat))
        c7State 0 "BAD SQL").1 = .error "syntax error" ∧
    (StatementCache.prepare (fun _ => (.error "syntax error" : Except String Nat))
        c7State 0 "BAD SQL").2.1.inner.entries = c7State.inner.entries ∧
    (StatementCache.prepare (fun _ => (.error "syntax error" : Except String Nat))
        c7State 0 "BAD SQL").2.1.hits = c7State.hits ∧
    (StatementCache.prepare (fun _ => (.error "syntax error" : Except String Nat))
        c7State 0 "BAD SQL").2.1.misses = c7State.misses + 1 ∧
    (StatementCache.prepare (fun _ => (.error "syntax error" : Except String Nat))
        c7State 0 "BAD SQL").2.2 = true :=
  c7_failed_preparation_amended Nat String _ c7State 0 "BAD SQL" "syntax error"
    (by decide) rfl

/-! ## Whitespace tokens: characterizing `normalizeSQL`

`wsTokens` splits a character list at whitespace runs; "two texts differ
only in whitespace runs (including leading/trailing whitespace)" means
exactly that their token sequences agree.  `normalizeSQL` is proved
equal to joining the tokens with single spaces, so two texts get the
same normalized form (hence the same cache entry) iff their token
sequences agree. -/

/-- The maximal non-whitespace tokens of a character list, in order. -/
def wsTokens (l : List Char) : List (List Char) :=
  match l with
  | [] => []
  | c :: rest =>
    if isJsSpace c then wsTokens rest
    else (c :: rest.takeWhile (fun d => !isJsSpace d)) ::
         wsTokens (rest.dropWhile (fun d => !isJsSpace d))
termination_by l.length
decreasing_by
  · simp only [List.length_cons]
    omega
  · simp only [List.length_cons]
    exact Nat.lt_succ_of_le (dropWhileLengthLe _ rest)

/-- Join tokens with single spaces. -/
def joinTok : List (List Char) → List Char
  | [] => []
  | [t] => t
  | t :: ts => t ++ ' ' :: joinTok ts

theorem takeWhileAppend {α : Type} (p : α → Bool) (A B : List α)
    (h : ∀ a ∈ A, p a = true) :
    (A ++ B).takeWhile p = A ++ B.takeWhile p := by
  induction A with
  | nil => simp
  | cons a A ih =>
    simp only [List.cons_append, List.takeWhile_cons, h a (by simp), if_pos]
    rw [ih (fun x hx => h x (by simp [hx]))]

theorem dropWhileAppend {α : Type} (p : α → Bool) (A B : List α)
    (h : ∀ a ∈ A, p a = true) :
    (A ++ B).dropWhile p = B.dropWhile p := by
  induction A with
  | nil => simp
  | cons a A ih =>
    simp only [List.cons_append, List.dropWhile_cons, h a (by simp), if_pos]
    exact ih (fun x hx => h x (by simp [hx]))

theorem dropWhileEqSelf {α : Type} (p : α → Bool) (l : List α)
    (h : ∀ a ∈ l, p a = false) : l.dropWhile p = l := by
  cases l with
  | nil => rfl
  | cons a l =>
    rw [List.dropWhile_cons, if_neg (by simp [h a (by simp)])]

theorem dropWhileNeNilOfAppend {α : Type} (p : α → Bool) (X Y : List α)
    (h : X.dropWhile p ≠ []) : (X ++ Y).dropWhile p = X.dropWhile p ++ Y := by
  induction X with
  | nil => simp at h
  | cons x X ih =>
    by_cases hx : p x = true
    · rw [List.cons_append, List.dropWhile_cons, if_pos hx]
      rw [List.dropWhile_cons, if_pos hx] at h ⊢
      exact ih h
    · rw [List.cons_append, List.dropWhile_cons, if_neg hx,
        List.dropWhile_cons, if_neg hx, List.cons_append]

/-- Right trim, so that `trimWs l = trimRight (l.dropWhile isJsSpace)`. -/
def trimRight (l : List Char) : List Char :=
  (l.reverse.dropWhile isJsSpace).reverse

theorem trimWs_eq (l : List Char) :
    trimWs l = trimRight (l.dropWhile isJsSpace) := rfl

theorem trimRight_append_space (A : List Char) :
    trimRight (A ++ [' ']) = trimRight A := by
  unfold trimRight
  rw [List.reverse_append]
  simp [List.dropWhile_cons, isJsSpace]

theorem trimRight_nospace (A : List Char) (h : ∀ c ∈ A, isJsSpace c = false) :
    trimRight A = A := by
  unfold trimRight
  rw [dropWhileEqSelf isJsSpace A.reverse (fun c hc => h c (List.mem_reverse.1 hc))]
  exact List.reverse_reverse A

theorem trimRight_ne_nil (w : Char) (X : List Char) (hw : isJsSpace w = false) :
    trimRight (w :: X) ≠ [] := by
  unfold trimRight
  intro h
  rw [List.reverse_eq_nil_iff, List.dropWhile_eq_nil_iff] at h
  exact absurd (h w (by simp)) (by simp [hw])

theorem trimRight_append (A B : List Char) (hB : trimRight B ≠ []) :
    trimRight (A ++ B) = A ++ trimRight B := by
  unfold trimRight at hB ⊢
  rw [List.reverse_append, dropWhileNeNilOfAppend]
  · rw [List.reverse_append, List.reverse_reverse]
  · intro h
    rw [h] at hB
    simp at hB

/-! ### Unfolding equations for `collapseWs` and `wsTokens` -/

theorem collapseWs_nil : collapseWs [] = [] := rfl

theorem collapseWs_cons_space (c : Char) (rest : List Char) (h : isJsSpace c = true) :
    collapseWs (c :: rest) = ' ' :: collapseWs (rest.dropWhile isJsSpace) := by
  show collapseAux false (c :: rest) = _
  unfold collapseAux
  rw [if_pos h, if_neg (by simp), collapseAux_true]
  rfl

theorem collapseWs_cons_nonspace (c : Char) (rest : List Char) (h : isJsSpace c = false) :
    collapseWs (c :: rest) = c :: collapseWs rest := by
  show collapseAux false (c :: rest) = _
  unfold collapseAux
  rw [if_neg (by simp [h])]
  rfl

theorem wsTokens_nil : wsTokens [] = [] := by
  unfold wsTokens
  rfl

theorem wsTokens_cons_space (c : Char) (rest : List Char) (h : isJsSpace c = true) :
    wsTokens (c :: rest) = wsTokens rest := by
  conv_lhs => rw [wsTokens]
  rw [if_pos h]

theorem wsTokens_cons_nonspace (c : Char) (rest : List Char) (h : isJsSpace c = false) :
    wsTokens (c :: rest) =
      (c :: rest.takeWhile (fun d => !isJsSpace d)) ::
        wsTokens (rest.dropWhile (fun d => !isJsSpace d)) := by
  conv_lhs => rw [wsTokens]
  rw [if_neg (by simp [h])]

theorem joinTok_cons_of_ne_nil (t : List Char) (ts : List (List Char)) (h : ts ≠ []) :
    joinTok (t :: ts) = t ++ ' ' :: joinTok ts := by
  cases ts with
  | nil => exact absurd rfl h
  | cons t2 ts' => rfl

theorem memTakeWhile {α : Type} (p : α → Bool) (l : List α) (a : α)
    (h : a ∈ l.takeWhile p) : p a = true := by
  induction l with
  | nil => simp at h
  | cons x l ih =>
    rw [List.takeWhile_cons] at h
    by_cases hx : p x = true
    · rw [if_pos hx] at h
      rcases List.mem_cons.1 h with rfl | h'
      · exact hx
      · exact ih h'
    · rw [if_neg hx] at h
      simp at h

theorem dropWhileHeadNot {α : Type} (p : α → Bool) (l : List α) (d : α) (r : List α)
    (h : l.dropWhile p = d :: r) : p d = false := by
  induction l with
  | nil => simp at h
  | cons x l ih =>
    rw [List.dropWhile_cons] at h
    by_cases hx : p x = true
    · rw [if_pos hx] at h
      exact ih h
    · rw [if_neg hx] at h
      cases h
      exact Bool.not_eq_true _ ▸ (by simpa using hx)

theorem wsTokens_dropWhile (l : List Char) :
    wsTokens (l.dropWhile isJsSpace) = wsTokens l := by
  induction l with
  | nil => simp
  | cons a l ih =>
    by_cases ha : isJsSpace a = true
    · rw [List.dropWhile_cons, if_pos ha, wsTokens_cons_space a l ha, ih]
    · rw [List.dropWhile_cons, if_neg ha]

/-- `collapseWs` on a non-space-headed list copies the leading token. -/
theorem collapse_nonspace_head (rest : List Char) (c : Char) (hc : isJsSpace c = false) :
    collapseWs (c :: rest) =
      c :: rest.takeWhile (fun d => !isJsSpace d) ++
        collapseWs (rest.dropWhile (fun d => !isJsSpace d)) := by
  induction rest generalizing c with
  | nil =>
    rw [collapseWs_cons_nonspace c [] hc]
    simp
  | cons d r2 ih =>
    rw [collapseWs_cons_nonspace c (d :: r2) hc]
    by_cases hd : isJsSpace d = true
    · rw [List.takeWhile_cons, if_neg (by simp [hd]), List.dropWhile_cons,
        if_neg (by simp [hd])]
      simp
    · rw [ih d (by simpa using hd)]
      rw [List.takeWhile_cons, if_pos (by simp [hd]), List.dropWhile_cons,
        if_pos (by simp [hd])]
      simp

/-- Main characterization, by strong induction on the length bound:
normalization equals the whitespace tokens joined by single spaces. -/
theorem trim_collapse_eq_join (n : Nat) :
    ∀ l : List Char, l.length ≤ n → trimWs (collapseWs l) = joinTok (wsTokens l) := by
  induction n with
  | zero =>
    intro l hl
    have : l = [] := List.eq_nil_of_length_eq_zero (Nat.le_zero.1 hl)
    subst this
    rw [collapseWs_nil, wsTokens_nil]
    rfl
  | succ n ih =>
    intro l hl
    cases l with
    | nil =>
      rw [collapseWs_nil, wsTokens_nil]
      rfl
    | cons c rest =>
      have hrest : rest.length ≤ n := by
        simp only [List.length_cons] at hl
        omega
      by_cases hc : isJsSpace c = true
      · rw [collapseWs_cons_space c rest hc, wsTokens_cons_space c rest hc]
        rw [trimWs_eq, List.dropWhile_cons, if_pos (by decide), ← trimWs_eq]
        rw [ih (rest.dropWhile isJsSpace) (le_trans (dropWhileLengthLe _ _) hrest)]
        rw [wsTokens_dropWhile]
      · rw [Bool.not_eq_true] at hc
        rw [collapse_nonspace_head rest c hc, wsTokens_cons_nonspace c rest hc]
        have htok : ∀ x ∈ rest.takeWhile (fun d => !isJsSpace d), isJsSpace x = false := by
          intro x hx
          have := memTakeWhile _ _ _ hx
          simpa using this
        have hctok : ∀ x ∈ c :: rest.takeWhile (fun d => !isJsSpace d),
            isJsSpace x = false := by
          intro x hx
          rcases List.mem_cons.1 hx with rfl | hx'
          · exact hc
          · exact htok x hx'
        rw [trimWs_eq, List.cons_append, List.dropWhile_cons, if_neg (by simp [hc]),
          ← List.cons_append]
        cases h1 : rest.dropWhile (fun d => !isJsSpace d) with
        | nil =>
          rw [collapseWs_nil, wsTokens_nil, List.append_nil]
          exact trimRight_nospace _ hctok
        | cons d rest'' =>
          have hd : isJsSpace d = true := by
            have := dropWhileHeadNot _ _ _ _ h1
            simpa using this
          rw [collapseWs_cons_space d rest'' hd, wsTokens_cons_space d rest'' hd,
            ← wsTokens_dropWhile rest'']
          have hlen1 : rest''.length < rest.length := by
            have h2 := dropWhileLengthLe (fun d => !isJsSpace d) rest
            rw [h1] at h2
            simp only [List.length_cons] at h2
            omega
          cases h2 : rest''.dropWhile isJsSpace with
          | nil =>
            rw [collapseWs_nil, wsTokens_nil]
            rw [show ((' ' : Char) :: ([] : List Char)) = [' '] from rfl,
              trimRight_append_space _]
            exact trimRight_nospace _ hctok
          | cons w W' =>
            have hw : isJsSpace w = false := dropWhileHeadNot _ _ _ _ h2
            have hWlen : (w :: W').length ≤ n := by
              have h3 := dropWhileLengthLe isJsSpace rest''
              rw [h2] at h3
              simp only [List.length_cons] at h3 ⊢
              omega
            have hih := ih (w :: W') hWlen
            have hcw : collapseWs (w :: W') = w :: collapseWs W' :=
              collapseWs_cons_nonspace w W' hw
            have hne : trimRight (collapseWs (w :: W')) ≠ [] := by
              rw [hcw]
              exact trimRight_ne_nil w _ hw
            have h3 : trimWs (collapseWs (w :: W')) =
                trimRight (collapseWs (w :: W')) := by
              rw [trimWs_eq, hcw, List.dropWhile_cons, if_neg (by simp [hw]), ← hcw]
            have hts : wsTokens (w :: W') ≠ [] := by
              rw [wsTokens_cons_nonspace w W' hw]
              simp
            rw [List.append_cons _ ' ' (collapseWs (w :: W')),
              trimRight_append _ _ hne,
              joinTok_cons_of_ne_nil _ _ hts, ← hih, h3]
            simp


/-- Wrapper for the characterization at any length. -/
theorem normalize_data_eq_join (l : List Char) :
    trimWs (collapseWs l) = joinTok (wsTokens l) :=
  trim_collapse_eq_join l.length l le_rfl

/-- Tokens are nonempty and whitespace-free. -/
theorem wsTokens_wf (n : Nat) :
    ∀ l : List Char, l.length ≤ n →
      ∀ t ∈ wsTokens l, t ≠ [] ∧ ∀ x ∈ t, isJsSpace x = false := by
  induction n with
  | zero =>
    intro l hl
    have : l = [] := List.eq_nil_of_length_eq_zero (Nat.le_zero.1 hl)
    subst this
    rw [wsTokens_nil]
    simp
  | succ n ih =>
    intro l hl
    cases l with
    | nil =>
      rw [wsTokens_nil]
      simp
    | cons c rest =>
      have hrest : rest.length ≤ n := by
        simp only [List.length_cons] at hl
        omega
      by_cases hc : isJsSpace c = true
      · rw [wsTokens_cons_space c rest hc]
        exact ih rest hrest
      · rw [Bool.not_eq_true] at hc
        rw [wsTokens_cons_nonspace c rest hc]
        intro t ht
        rcases List.mem_cons.1 ht with rfl | ht'
        · refine ⟨by simp, ?_⟩
          intro x hx
          rcases List.mem_cons.1 hx with rfl | hx'
          · exact hc
          · simpa using memTakeWhile _ _ _ hx'
        · exact ih (rest.dropWhile (fun d => !isJsSpace d))
            (le_trans (dropWhileLengthLe _ _) hrest) t ht'

/-- Joining well-formed tokens and re-splitting recovers them. -/
theorem wsTokens_joinTok (ts : List (List Char))
    (hwf : ∀ t ∈ ts, t ≠ [] ∧ ∀ x ∈ t, isJsSpace x = false) :
    wsTokens (joinTok ts) = ts := by
  induction ts with
  | nil => exact wsTokens_nil
  | cons t ts ih =>
    obtain ⟨hne, hnospace⟩ := hwf t (by simp)
    cases t with
    | nil => exact absurd rfl hne
    | cons c tc =>
      have hc : isJsSpace c = false := hnospace c (by simp)
      have htc : ∀ x ∈ tc, (fun d => !isJsSpace d) x = true := by
        intro x hx
        simp [hnospace x (by simp [hx])]
      cases ts with
      | nil =>
        show wsTokens (c :: tc) = [c :: tc]
        rw [wsTokens_cons_nonspace c tc hc]
        rw [show tc.takeWhile (fun d => !isJsSpace d) = tc by
          conv_lhs => rw [← List.append_nil tc]
          rw [takeWhileAppend _ tc [] htc]
          simp]
        rw [show tc.dropWhile (fun d => !isJsSpace d) = [] by
          conv_lhs => rw [← List.append_nil tc]
          rw [dropWhileAppend _ tc [] htc]
          simp]
        rw [wsTokens_nil]
      | cons t2 ts2 =>
        rw [joinTok_cons_of_ne_nil _ _ (by simp), List.cons_append,
          wsTokens_cons_nonspace c _ hc]
        rw [takeWhileAppend _ tc _ htc, dropWhileAppend _ tc _ htc]
        rw [List.takeWhile_cons, if_neg (by decide), List.append_nil]
        rw [List.dropWhile_cons, if_neg (by decide)]
        rw [wsTokens_cons_space ' ' _ (by decide)]
        rw [ih (fun t ht => hwf t (by simp [ht]))]

/-- Two SQL texts normalize identically iff they have the same
whitespace-token sequence, i.e. iff they differ only in whitespace runs
(including leading/trailing whitespace). -/
theorem normalizeSQL_eq_iff (s1 s2 : String) :
    normalizeSQL s1 = normalizeSQL s2 ↔ wsTokens s1.data = wsTokens s2.data := by
  constructor
  · intro h
    have hd : trimWs (collapseWs s1.data) = trimWs (collapseWs s2.data) :=
      congrArg String.data h
    rw [normalize_data_eq_join, normalize_data_eq_join] at hd
    have h1 := wsTokens_joinTok (wsTokens s1.data)
      (wsTokens_wf s1.data.length s1.data le_rfl)
    have h2 := wsTokens_joinTok (wsTokens s2.data)
      (wsTokens_wf s2.data.length s2.data le_rfl)
    rw [← h1, ← h2, hd]
  · intro h
    unfold normalizeSQL
    congr 1
    rw [normalize_data_eq_join, normalize_data_eq_join, h]

/-- Following the spec's words: the contents of the single-quoted SQL
string literals of a statement text, in order.  The spec's notion of
"functionally different statements" is not a function of the source;
SQL semantics gives every string literal its exact character content, so
two texts whose literal contents differ are functionally different.
(Quote escaping by doubling is not modelled; the inputs used below
contain no escaped quotes.) -/
def litAux : List Char → Bool → List Char → List (List Char)
  | [], true, acc => [acc.reverse]
  | [], false, _ => []
  | c :: rest, true, acc =>
    if c = '\'' then acc.reverse :: litAux rest false []
    else litAux rest true (c :: acc)
  | c :: rest, false, acc =>
    if c = '\'' then litAux rest true []
    else litAux rest false acc

def specLiteralContents (l : List Char) : List (List Char) := litAux l false []

/-! ### `set` stores its key; `set` preserves configuration -/

theorem assocGet_append_self {α : Type} (m : List (String × α)) (k : String) (v : α)
    (h : assocHas m k = false) : assocGet (m ++ [(k, v)]) k = some v := by
  induction m with
  | nil => simp [assocGet]
  | cons p rest ih =>
    have hp : p.1 ≠ k ∧ assocHas rest k = false := by
      by_cases hpk : p.1 = k
      · exfalso
        obtain ⟨k', v'⟩ := p
        simp only [assocHas, assocGet] at h
        rw [if_pos hpk] at h
        simp at h
      · refine ⟨hpk, ?_⟩
        obtain ⟨k', v'⟩ := p
        simpa [assocHas, assocGet, hpk] using h
    obtain ⟨k', v'⟩ := p
    simp only [List.cons_append, assocGet, if_neg hp.1]
    exact ih hp.2

theorem LRUCache.set_of_full_empty {T : Type} (s : LRUState T) (now : Nat)
    (key : String) (v : T) (h : assocHas s.entries key = false)
    (hfull : s.entries.length ≥ s.maxSize) (hhead : s.entries.head? = none) :
    LRUCache.set s now key v =
      ({ s with entries := assocSet s.entries key ⟨v, now⟩ }, []) := by
  unfold LRUCache.set
  rw [if_neg (by simp [h]), if_pos hfull, hhead]

theorem LRUCache.set_stores {T : Type} (s : LRUState T) (now : Nat) (key : String)
    (v : T) (h : assocHas s.entries key = false) :
    assocGet (LRUCache.set s now key v).1.entries key = some ⟨v, now⟩ := by
  by_cases hfull : s.entries.length ≥ s.maxSize
  · cases hhead : s.entries.head? with
    | some p =>
      obtain ⟨fk, fe⟩ := p
      rw [LRUCache.set_of_full s now key v fk fe h hfull hhead]
      have hnot : assocHas (assocDelete s.entries fk) key = false :=
        assocHas_assocDelete_false _ _ _ h
      show assocGet (assocSet (assocDelete s.entries fk) key ⟨v, now⟩) key = _
      rw [assocSet_of_not_has _ _ _ hnot]
      exact assocGet_append_self _ _ _ hnot
    | none =>
      rw [LRUCache.set_of_full_empty s now key v h hfull hhead]
      show assocGet (assocSet s.entries key ⟨v, now⟩) key = _
      rw [assocSet_of_not_has _ _ _ h]
      exact assocGet_append_self _ _ _ h
  · rw [LRUCache.set_of_room s now key v h hfull]
    exact assocGet_append_self _ _ _ h

theorem LRUCache.set_preserves_config {T : Type} (s : LRUState T) (now : Nat)
    (key : String) (v : T) :
    (LRUCache.set s now key v).1.maxSize = s.maxSize ∧
    (LRUCache.set s now key v).1.maxAge = s.maxAge := by
  unfold LRUCache.set
  split
  · exact ⟨rfl, rfl⟩
  · split
    · split
      · exact ⟨rfl, rfl⟩
      · exact ⟨rfl, rfl⟩
    · exact ⟨rfl, rfl⟩

/-! ### First-time and cached preparations -/

/-- A first preparation of an uncached text: prepares through the
database, returns and stores the handle under the normalized key. -/
theorem StatementCache.prepare_first_time {H E : Type} (prepFn : String → Except E H)
    (s : StmtState H) (now : Nat) (sql : String) (h : H)
    (hg : assocGet s.inner.entries (normalizeSQL sql) = none)
    (hp : prepFn (normalizeSQL sql) = .ok h) :
    (StatementCache.prepare prepFn s now sql).1 = .ok h ∧
    (StatementCache.prepare prepFn s now sql).2.2 = true ∧
    assocGet (StatementCache.prepare prepFn s now sql).2.1.inner.entries
      (normalizeSQL sql) = some ⟨h, now⟩ ∧
    (StatementCache.prepare prepFn s now sql).2.1.inner.maxAge = s.inner.maxAge := by
  have hinner := LRUCache.get_none s.inner now (normalizeSQL sql) hg
  have h1 : (LRUCache.get s.inner now (normalizeSQL sql)).1 = none := by rw [hinner]
  rw [StatementCache.prepare_miss_ok prepFn s now sql h h1 hp, hinner]
  refine ⟨rfl, rfl, ?_, ?_⟩
  · apply LRUCache.set_stores
    show assocHas s.inner.entries (normalizeSQL sql) = false
    unfold assocHas
    rw [hg]
    rfl
  · exact (LRUCache.set_preserves_config _ now (normalizeSQL sql) h).2

/-- A preparation whose normalized text is cached (with no inner
`maxAge`, as the statement cache constructs it): a hit, no database
call. -/
theorem StatementCache.prepare_cached {H E : Type} (prepFn : String → Except E H)
    (st : StmtState H) (now : Nat) (sql : String) (ce : CacheEntry H)
    (hma : st.inner.maxAge = none)
    (hstored : assocGet st.inner.entries (normalizeSQL sql) = some ce) :
    (StatementCache.prepare prepFn st now sql).1 = .ok ce.value ∧
    (StatementCache.prepare prepFn st now sql).2.2 = false ∧
    (StatementCache.prepare prepFn st now sql).2.1.hits = st.hits + 1 := by
  have hex : LRUCache.isExpired st.inner now ce = false := by
    unfold LRUCache.isExpired
    rw [hma]
  have h1 : (LRUCache.get st.inner now (normalizeSQL sql)).1 = some ce.value := by
    rw [LRUCache.get_hit st.inner now (normalizeSQL sql) ce hstored hex]
  rw [StatementCache.prepare_hit prepFn st now sql ce.value h1]
  exact ⟨rfl, rfl, rfl⟩

/-! ## Claim C8: statement normalization -/

/-- C8 counterexample.  The claim states that functionally different
statements never collide.  But normalization collapses whitespace runs
inside SQL string literals too: `SELECT 'a  b' AS x` and
`SELECT 'a b' AS x` select different string constants (their literal
contents differ), yet they normalize to the same text, so they share one
cache entry: preparing the second right after the first is served from
the cache (no second database preparation). -/
theorem c8_counterexample :
    normalizeSQL "SELECT 'a  b' AS x" = normalizeSQL "SELECT 'a b' AS x" ∧
    specLiteralContents ("SELECT 'a  b' AS x").data ≠
      specLiteralContents ("SELECT 'a b' AS x").data ∧
    (StatementCache.prepare (fun _ => (.ok 1 : Except String Nat))
        (StatementCache.prepare (fun _ => (.ok 1 : Except String Nat))
          (StatementCache.init Nat 4) 0 "SELECT 'a  b' AS x").2.1
        1 "SELECT 'a b' AS x").2.2 = false := by
  exact ⟨by decide, by decide, by decide⟩

/-- C8 (amended).  Statement normalization is purely textual: two texts
use the same cache entry exactly when their full normalized strings
agree, which happens exactly when their whitespace-token sequences agree
— i.e. when they differ only in whitespace runs (including
leading/trailing whitespace).  In particular two `prepare` calls whose
texts differ only in whitespace runs trigger a single underlying
preparation, the second being a cache hit returning the same handle.
Texts with different token sequences never collide; but because the
collapse also applies inside quoted string literals, functionally
different statements whose difference is whitespace inside a literal do
collide. -/
theorem c8_normalization_amended (H E : Type) :
    (∀ s1 s2 : String,
        normalizeSQL s1 = normalizeSQL s2 ↔ wsTokens s1.data = wsTokens s2.data)
    ∧
    normalizeSQL "SELECT  *\n FROM t" = normalizeSQL "SELECT * FROM t"
    ∧
    (∀ (prepFn : String → Except E H) (s : StmtState H) (now now2 : Nat)
        (sql1 sql2 : String) (h : H),
        normalizeSQL sql1 = normalizeSQL sql2 →
        s.inner.maxAge = none →
        assocGet s.inner.entries (normalizeSQL sql1) = none →
        prepFn (normalizeSQL sql1) = .ok h →
        (StatementCache.prepare prepFn s now sql1).1 = .ok h ∧
        (StatementCache.prepare prepFn s now sql1).2.2 = true ∧
        (StatementCache.prepare prepFn
            (StatementCache.prepare prepFn s now sql1).2.1 now2 sql2).1 = .ok h ∧
        (StatementCache.prepare prepFn
            (StatementCache.prepare prepFn s now sql1).2.1 now2 sql2).2.2 = false) := by
  refine ⟨normalizeSQL_eq_iff, by decide, ?_⟩
  intro prepFn s now now2 sql1 sql2 h hnorm hma hg hp
  obtain ⟨hr1, hr2, hstored, hma'⟩ :=
    StatementCache.prepare_first_time prepFn s now sql1 h hg hp
  refine ⟨hr1, hr2, ?_, ?_⟩
  · exact (StatementCache.prepare_cached prepFn _ now2 sql2 ⟨h, now⟩
      (hma'.trans hma) (by rw [← hnorm]; exact hstored)).1
  · exact (StatementCache.prepare_cached prepFn _ now2 sql2 ⟨h, now⟩
      (hma'.trans hma) (by rw [← hnorm]; exact hstored)).2.1

/-- Witness for C8 (amended): both identical texts and the concrete
whitespace-variant pair, on a fresh cache. -/
theorem c8_normalization_amended_witness :
    (StatementCache.prepare (fun _ => (.ok 7 : Except String Nat))
        (StatementCache.init Nat 4) 0 "SELECT  *\n FROM t").1 = .ok 7 ∧
    (StatementCache.prepare (fun _ => (.ok 7 : Except String Nat))
        (StatementCache.init Nat 4) 0 "SELECT  *\n FROM t").2.2 = true ∧
    (StatementCache.prepare (fun _ => (.ok 7 : Except String Nat))
        (StatementCache.prepare (fun _ => (.ok 7 : Except String Nat))
          (StatementCache.init Nat 4) 0 "SELECT  *\n FROM t").2.1
        1 "SELECT * FROM t").1 = .ok 7 ∧
    (StatementCache.prepare (fun _ => (.ok 7 : Except String Nat))
        (StatementCache.prepare (fun _ => (.ok 7 : Except String Nat))
          (StatementCache.init Nat 4) 0 "SELECT  *\n FROM t").2.1
        1 "SELECT * FROM t").2.2 = false :=
  (c8_normalization_amended Nat String).2.2 (fun _ => .ok 7)
    (StatementCache.init Nat 4) 0 1 "SELECT  *\n FROM t" "SELECT * FROM t" 7
    (by decide) rfl rfl rfl

/-! ## Cache key builder (`generateCacheKey`, src/storage/query-cache.ts)

The parameter record `Record<string, unknown>` is modelled as an
association list of names to flat JavaScript values.  The value domain
`JsPrim` covers the flat primitives, including the two degenerate values
relevant to `JSON.stringify`: `undefined` (properties with this value
are omitted from the output) and `NaN` (serialized as `null`).  Numbers
are modelled by the integers; strings by `String`.

`JSON.stringify` is modelled character-exactly on this domain, except
that control characters other than the five shorthand escapes are kept
raw rather than `\u`-escaped — a difference of spelling only, with no
effect on equality of generated keys. -/

inductive JsPrim where
  | jundef
  | jnan
  | jnull
  | jbool (b : Bool)
  | jint (n : Int)
  | jstr (s : String)
deriving DecidableEq, Repr

/-- `JSON.stringify` escaping of one string character. -/
def escapeChar (c : Char) : List Char :=
  if c = '"' then ['\\', '"']
  else if c = '\\' then ['\\', '\\']
  else if c = '\n' then ['\\', 'n']
  else if c = '\t' then ['\\', 't']
  else if c = '\r' then ['\\', 'r']
  else if c = '\x08' then ['\\', 'b']
  else if c = '\x0c' then ['\\', 'f']
  else [c]

def escapeStr : List Char → List Char
  | [] => []
  | c :: rest => escapeChar c ++ escapeStr rest

/-- Decimal digits of `n`, most significant first (`String(n)` for a
natural number).  The fuel argument makes the recursion structural. -/
def digitChar (d : Nat) : Char := Char.ofNat (48 + d)

def serNatAux : Nat → Nat → List Char
  | 0, _ => []
  | fuel + 1, n =>
    if n < 10 then [digitChar n]
    else serNatAux fuel (n / 10) ++ [digitChar (n % 10)]

def serNat (n : Nat) : List Char := serNatAux (n + 1) n

/-- JavaScript number-to-string for integral values. -/
def serInt (i : Int) : List Char :=
  if i < 0 then '-' :: serNat i.natAbs else serNat i.toNat

/-- `JSON.stringify` of one (defined) flat value.  `jundef` never
reaches value position: properties holding it are omitted at the object
level, mirroring `JSON.stringify`. -/
def serPrim : JsPrim → List Char
  | .jundef => []
  | .jnan => ['n', 'u', 'l', 'l']
  | .jnull => ['n', 'u', 'l', 'l']
  | .jbool true => ['t', 'r', 'u', 'e']
  | .jbool false => ['f', 'a', 'l', 's', 'e']
  | .jint i => serInt i
  | .jstr s => '"' :: escapeStr s.data ++ ['"']

/-- One `"name":value` property. -/
def serProp (k : String) (v : JsPrim) : List Char :=
  '"' :: escapeStr k.data ++ '"' :: ':' :: serPrim v

/-- Comma-separated property list. -/
def objBody : List (String × JsPrim) → List Char
  | [] => []
  | [(k, v)] => serProp k v
  | (k, v) :: rest => serProp k v ++ ',' :: objBody rest

/-- `JSON.stringify` of a flat object: properties in list order, those
with value `undefined` omitted. -/
def jsonObjChars (ps : List (String × JsPrim)) : List Char :=
  '{' :: objBody (ps.filter (fun p => !(p.2 = .jundef))) ++ ['}']

/-- Lexicographic comparison of character lists by code point,
modelling JavaScript's default string comparison (code-unit order,
which coincides with code-point order on the Basic Multilingual
Plane). -/
def charListLe : List Char → List Char → Bool
  | [], _ => true
  | _ :: _, [] => false
  | a :: as, b :: bs =>
    if a.toNat = b.toNat then charListLe as bs
    else decide (a.toNat < b.toNat)

/-- Lexicographic string comparison on the underlying character lists. -/
def strLe (a b : String) : Bool :=
  charListLe a.data b.data

/-- `Object.keys(params).sort()`: JavaScript's default sort is
lexicographic on the string code units. -/
def sortStrings (l : List String) : List String :=
  List.insertionSort (fun a b : String => strLe a b = true) l

/-- `generateCacheKey(queryName, params)`: sort the parameter names,
rebuild the record in sorted order, and return
`queryName + ":" + JSON.stringify(sortedParams)`. -/
def canonicalProps (params : List (String × JsPrim)) : List (String × JsPrim) :=
  (sortStrings (params.map Prod.fst)).map (fun k => (k, (assocGet params k).getD .jundef))

def generateCacheKey (queryName : String) (params : List (String × JsPrim)) : String :=
  ⟨queryName.data ++ ':' :: jsonObjChars (canonicalProps params)⟩

/-! ### A parser for the generated JSON, used to prove that the key
determines the (sorted, `NaN`/`undefined`-free) parameters. -/

def unescapeChar (c : Char) : Option Char :=
  if c = '"' then some '"'
  else if c = '\\' then some '\\'
  else if c = 'n' then some '\n'
  else if c = 't' then some '\t'
  else if c = 'r' then some '\r'
  else if c = 'b' then some '\x08'
  else if c = 'f' then some '\x0c'
  else none

def parseJString : List Char → Option (List Char × List Char)
  | [] => none
  | c :: rest =>
    if c = '"' then some ([], rest)
    else if c = '\\' then
      match rest with
      | [] => none
      | e :: rest2 =>
        match unescapeChar e, parseJString rest2 with
        | some u, some p => some (u :: p.1, p.2)
        | _, _ => none
    else
      match parseJString rest with
      | some p => some (c :: p.1, p.2)
      | none => none

def digitVal (c : Char) : Nat := c.toNat - 48

def parseNatVal (l : List Char) : Option (Nat × List Char) :=
  let ds := l.takeWhile Char.isDigit
  if ds.isEmpty then none
  else some (ds.foldl (fun a c => a * 10 + digitVal c) 0, l.dropWhile Char.isDigit)

def parseIntVal (l : List Char) : Option (JsPrim × List Char) :=
  if l.head? = some '-' then
    (parseNatVal (l.drop 1)).map (fun p => (.jint (-(p.1 : Int)), p.2))
  else
    (parseNatVal l).map (fun p => (.jint (p.1 : Int), p.2))

def parseVal (l : List Char) : Option (JsPrim × List Char) :=
  if l.take 4 = ['n', 'u', 'l', 'l'] then some (.jnull, l.drop 4)
  else if l.take 4 = ['t', 'r', 'u', 'e'] then some (.jbool true, l.drop 4)
  else if l.take 5 = ['f', 'a', 'l', 's', 'e'] then some (.jbool false, l.drop 5)
  else if l.head? = some '"' then
    (parseJString (l.drop 1)).map (fun p => (.jstr ⟨p.1⟩, p.2))
  else parseIntVal l

def parseProps : Nat → List Char → Option (List (String × JsPrim) × List Char)
  | 0, _ => none
  | fuel + 1, l =>
    if l.head? = some '"' then
      match parseJString (l.drop 1) with
      | none => none
      | some ks =>
        if ks.2.head? = some ':' then
          match parseVal (ks.2.drop 1) with
          | none => none
          | some vs =>
            if vs.2.head? = some ',' then
              match parseProps fuel (vs.2.drop 1) with
              | none => none
              | some ps => some ((⟨ks.1⟩, vs.1) :: ps.1, ps.2)
            else if vs.2.head? = some '}' then
              some ([(⟨ks.1⟩, vs.1)], vs.2.drop 1)
            else none
        else none
    else none

def parseObj (l : List Char) : Option (List (String × JsPrim) × List Char) :=
  if l.take 2 = ['{', '}'] then some ([], l.drop 2)
  else if l.head? = some '{' then parseProps l.length (l.drop 1)
  else none

/-! ### Round trips: numbers -/

theorem consNeOfHead {a b : Char} (X Y : List Char) (h : a ≠ b) : a :: X ≠ b :: Y := by
  intro he
  injection he with h1 _
  exact h h1

theorem digitNe (c x : Char) (hc : c.isDigit = true) (hx : x.isDigit = false) :
    c ≠ x := by
  intro he
  rw [he, hx] at hc
  simp at hc

theorem digitVal_digitChar (d : Nat) (h : d < 10) : digitVal (digitChar d) = d := by
  interval_cases d <;> decide

theorem isDigit_digitChar (d : Nat) (h : d < 10) : (digitChar d).isDigit = true := by
  interval_cases d <;> decide

theorem serNatAux_ne_nil (fuel n : Nat) (h : 0 < fuel) : serNatAux fuel n ≠ [] := by
  cases fuel with
  | zero => omega
  | succ fuel =>
    unfold serNatAux
    by_cases h10 : n < 10
    · rw [if_pos h10]
      simp
    · rw [if_neg h10]
      simp

theorem serNatAux_digits (fuel n : Nat) :
    ∀ c ∈ serNatAux fuel n, c.isDigit = true := by
  induction fuel generalizing n with
  | zero =>
    intro c hc
    simp [serNatAux] at hc
  | succ fuel ih =>
    intro c hc
    unfold serNatAux at hc
    by_cases h10 : n < 10
    · rw [if_pos h10] at hc
      rw [List.mem_singleton] at hc
      subst hc
      exact isDigit_digitChar n h10
    · rw [if_neg h10] at hc
      rcases List.mem_append.1 hc with h' | h'
      · exact ih (n / 10) c h'
      · rw [List.mem_singleton] at h'
        subst h'
        exact isDigit_digitChar _ (Nat.mod_lt n (by omega))

theorem serNatAux_foldl (fuel : Nat) :
    ∀ n a : Nat, n < fuel →
      (serNatAux fuel n).foldl (fun a c => a * 10 + digitVal c) a =
        a * 10 ^ (serNatAux fuel n).length + n := by
  induction fuel with
  | zero => intro n a h; omega
  | succ fuel ih =>
    intro n a h
    by_cases h10 : n < 10
    · unfold serNatAux
      rw [if_pos h10]
      simp [digitVal_digitChar n h10]
    · unfold serNatAux
      rw [if_neg h10]
      have hdiv : n / 10 < fuel := by
        have := Nat.div_lt_self (by omega : 0 < n) (by omega : 1 < 10)
        omega
      rw [List.foldl_append, ih (n / 10) a hdiv]
      simp only [List.foldl_cons, List.foldl_nil, List.length_append,
        List.length_cons, List.length_nil]
      rw [digitVal_digitChar _ (Nat.mod_lt n (by omega))]
      have hdm := Nat.div_add_mod n 10
      calc (a * 10 ^ (serNatAux fuel (n / 10)).length + n / 10) * 10 + n % 10
          = a * (10 ^ (serNatAux fuel (n / 10)).length * 10) +
              (10 * (n / 10) + n % 10) := by ring
        _ = a * 10 ^ ((serNatAux fuel (n / 10)).length + 1) + n := by
            rw [pow_succ, hdm]

theorem serNat_ne_nil (n : Nat) : serNat n ≠ [] :=
  serNatAux_ne_nil _ _ (by omega)

theorem serNat_digits (n : Nat) : ∀ c ∈ serNat n, c.isDigit = true :=
  serNatAux_digits _ _

theorem serNat_val (n : Nat) :
    (serNat n).foldl (fun a c => a * 10 + digitVal c) 0 = n := by
  have := serNatAux_foldl (n + 1) n 0 (by omega)
  simpa using this

theorem parseNatVal_roundtrip (n : Nat) (rest : List Char)
    (hrest : ∀ d, rest.head? = some d → d.isDigit = false) :
    parseNatVal (serNat n ++ rest) = some (n, rest) := by
  have hdig := serNat_digits n
  have htw0 : rest.takeWhile Char.isDigit = [] := by
    cases rest with
    | nil => rfl
    | cons d r => rw [List.takeWhile_cons, if_neg (by simp [hrest d rfl])]
  have hdw0 : rest.dropWhile Char.isDigit = rest := by
    cases rest with
    | nil => rfl
    | cons d r => rw [List.dropWhile_cons, if_neg (by simp [hrest d rfl])]
  unfold parseNatVal
  dsimp only
  rw [takeWhileAppend _ _ _ hdig, htw0, List.append_nil,
    dropWhileAppend _ _ _ hdig, hdw0]
  rw [if_neg (by simp only [List.isEmpty_iff]; exact serNat_ne_nil n)]
  rw [serNat_val n]

theorem parseIntVal_roundtrip (i : Int) (rest : List Char)
    (hrest : ∀ d, rest.head? = some d → d.isDigit = false) :
    parseIntVal (serInt i ++ rest) = some (.jint i, rest) := by
  by_cases hi : i < 0
  · unfold serInt
    rw [if_pos hi, List.cons_append]
    unfold parseIntVal
    have hh : ('-' :: (serNat i.natAbs ++ rest)).head? = some '-' := rfl
    rw [if_pos hh]
    rw [show ('-' :: (serNat i.natAbs ++ rest)).drop 1 = serNat i.natAbs ++ rest
      from rfl]
    rw [parseNatVal_roundtrip i.natAbs rest hrest]
    have hval : -((i.natAbs : Nat) : Int) = i := by omega
    show some (JsPrim.jint (-((i.natAbs : Nat) : Int)), rest) = some (.jint i, rest)
    rw [hval]
  · unfold serInt
    rw [if_neg hi]
    obtain ⟨c, cs, hser⟩ := List.exists_cons_of_ne_nil (serNat_ne_nil i.toNat)
    have hc : c.isDigit = true := serNat_digits i.toNat c (by rw [hser]; simp)
    have hcond : ¬ ((serNat i.toNat ++ rest).head? = some '-') := by
      rw [hser]
      intro h
      injection h with h'
      exact digitNe c '-' hc (by decide) h'
    unfold parseIntVal
    rw [if_neg hcond]
    rw [parseNatVal_roundtrip i.toNat rest hrest]
    have hval : ((i.toNat : Nat) : Int) = i := by omega
    show some (JsPrim.jint ((i.toNat : Nat) : Int), rest) = some (.jint i, rest)
    rw [hval]

/-! ### Round trips: strings and values -/

theorem parseJString_roundtrip (s : List Char) (rest : List Char) :
    parseJString (escapeStr s ++ '"' :: rest) = some (s, rest) := by
  induction s with
  | nil =>
    show parseJString ('"' :: rest) = _
    conv_lhs => rw [parseJString.eq_def]
    dsimp only
    rw [if_pos rfl]
  | cons c s ih =>
    rw [show escapeStr (c :: s) = escapeChar c ++ escapeStr s from rfl,
      List.append_assoc]
    by_cases h1 : c = '"'
    · subst h1
      rw [show escapeChar '"' = ['\\', '"'] from rfl]
      conv_lhs => rw [List.cons_append, List.cons_append, parseJString.eq_def]
      dsimp only [List.nil_append]
      rw [if_neg (by decide), if_pos rfl, ih]
      rfl
    · by_cases h2 : c = '\\'
      · subst h2
        rw [show escapeChar '\\' = ['\\', '\\'] from rfl]
        conv_lhs => rw [List.cons_append, List.cons_append, parseJString.eq_def]
        dsimp only [List.nil_append]
        rw [if_neg (by decide), if_pos rfl, ih]
        rfl
      · by_cases h3 : c = '\n'
        · subst h3
          rw [show escapeChar '\n' = ['\\', 'n'] from rfl]
          conv_lhs => rw [List.cons_append, List.cons_append, parseJString.eq_def]
          dsimp only [List.nil_append]
          rw [if_neg (by decide), if_pos rfl, ih]
          rfl
        · by_cases h4 : c = '\t'
          · subst h4
            rw [show escapeChar '\t' = ['\\', 't'] from rfl]
            conv_lhs => rw [List.cons_append, List.cons_append, parseJString.eq_def]
            dsimp only [List.nil_append]
            rw [if_neg (by decide), if_pos rfl, ih]
            rfl
          · by_cases h5 : c = '\r'
            · subst h5
              rw [show escapeChar '\r' = ['\\', 'r'] from rfl]
              conv_lhs => rw [List.cons_append, List.cons_append, parseJString.eq_def]
              dsimp only [List.nil_append]
              rw [if_neg (by decide), if_pos rfl, ih]
              rfl
            · by_cases h6 : c = '\x08'
              · subst h6
                rw [show escapeChar '\x08' = ['\\', 'b'] from rfl]
                conv_lhs => rw [List.cons_append, List.cons_append, parseJString.eq_def]
                dsimp only [List.nil_append]
                rw [if_neg (by decide), if_pos rfl, ih]
                rfl
              · by_cases h7 : c = '\x0c'
                · subst h7
                  rw [show escapeChar '\x0c' = ['\\', 'f'] from rfl]
                  conv_lhs => rw [List.cons_append, List.cons_append, parseJString.eq_def]
                  dsimp only [List.nil_append]
                  rw [if_neg (by decide), if_pos rfl, ih]
                  rfl
                · rw [show escapeChar c = [c] by
                    unfold escapeChar
                    rw [if_neg h1, if_neg h2, if_neg h3, if_neg h4, if_neg h5,
                      if_neg h6, if_neg h7]]
                  conv_lhs => rw [List.cons_append, parseJString.eq_def]
                  dsimp only [List.nil_append]
                  rw [if_neg h1, if_neg h2, ih]

theorem parseVal_roundtrip (v : JsPrim) (rest : List Char)
    (hv1 : v ≠ .jundef) (hv2 : v ≠ .jnan)
    (hrest : ∀ d, rest.head? = some d → d.isDigit = false) :
    parseVal (serPrim v ++ rest) = some (v, rest) := by
  cases v with
  | jundef => exact absurd rfl hv1
  | jnan => exact absurd rfl hv2
  | jnull =>
    show parseVal ('n' :: 'u' :: 'l' :: 'l' :: rest) = _
    have h0 : List.take 4 ('n' :: 'u' :: 'l' :: 'l' :: rest) = ['n', 'u', 'l', 'l'] :=
      rfl
    unfold parseVal
    rw [if_pos h0]
    rfl
  | jbool b =>
    cases b with
    | true =>
      show parseVal ('t' :: 'r' :: 'u' :: 'e' :: rest) = _
      have h0 : ¬ (List.take 4 ('t' :: 'r' :: 'u' :: 'e' :: rest) =
          ['n', 'u', 'l', 'l']) := consNeOfHead _ _ (by decide)
      have h1 : List.take 4 ('t' :: 'r' :: 'u' :: 'e' :: rest) =
          ['t', 'r', 'u', 'e'] := rfl
      unfold parseVal
      rw [if_neg h0, if_pos h1]
      rfl
    | false =>
      show parseVal ('f' :: 'a' :: 'l' :: 's' :: 'e' :: rest) = _
      have h0 : ¬ (List.take 4 ('f' :: 'a' :: 'l' :: 's' :: 'e' :: rest) =
          ['n', 'u', 'l', 'l']) := consNeOfHead _ _ (by decide)
      have h1 : ¬ (List.take 4 ('f' :: 'a' :: 'l' :: 's' :: 'e' :: rest) =
          ['t', 'r', 'u', 'e']) := consNeOfHead _ _ (by decide)
      have h2 : List.take 5 ('f' :: 'a' :: 'l' :: 's' :: 'e' :: rest) =
          ['f', 'a', 'l', 's', 'e'] := rfl
      unfold parseVal
      rw [if_neg h0, if_neg h1, if_pos h2]
      rfl
  | jstr s =>
    show parseVal ('"' :: (escapeStr s.data ++ ['"']) ++ rest) = _
    rw [List.cons_append, List.append_assoc]
    rw [show (['"'] : List Char) ++ rest = '"' :: rest from rfl]
    have h0 : ¬ (List.take 4 ('"' :: (escapeStr s.data ++ '"' :: rest)) =
        ['n', 'u', 'l', 'l']) := consNeOfHead _ _ (by decide)
    have h1 : ¬ (List.take 4 ('"' :: (escapeStr s.data ++ '"' :: rest)) =
        ['t', 'r', 'u', 'e']) := consNeOfHead _ _ (by decide)
    have h2 : ¬ (List.take 5 ('"' :: (escapeStr s.data ++ '"' :: rest)) =
        ['f', 'a', 'l', 's', 'e']) := consNeOfHead _ _ (by decide)
    have h3 : ('"' :: (escapeStr s.data ++ '"' :: rest)).head? = some '"' := rfl
    unfold parseVal
    rw [if_neg h0, if_neg h1, if_neg h2, if_pos h3]
    rw [show ('"' :: (escapeStr s.data ++ '"' :: rest)).drop 1 =
      escapeStr s.data ++ '"' :: rest from rfl]
    rw [parseJString_roundtrip s.data rest]
    rfl
  | jint i =>
    show parseVal (serInt i ++ rest) = _
    have hc1 : ¬ ((serInt i ++ rest).take 4 = ['n', 'u', 'l', 'l']) := by
      unfold serInt
      by_cases hi : i < 0
      · rw [if_pos hi, List.cons_append]
        exact consNeOfHead _ _ (by decide)
      · rw [if_neg hi]
        obtain ⟨c, cs, hser⟩ := List.exists_cons_of_ne_nil (serNat_ne_nil i.toNat)
        have hc : c.isDigit = true := serNat_digits i.toNat c (by rw [hser]; simp)
        rw [hser, List.cons_append]
        exact consNeOfHead _ _ (digitNe c 'n' hc (by decide))
    have hc2 : ¬ ((serInt i ++ rest).take 4 = ['t', 'r', 'u', 'e']) := by
      unfold serInt
      by_cases hi : i < 0
      · rw [if_pos hi, List.cons_append]
        exact consNeOfHead _ _ (by decide)
      · rw [if_neg hi]
        obtain ⟨c, cs, hser⟩ := List.exists_cons_of_ne_nil (serNat_ne_nil i.toNat)
        have hc : c.isDigit = true := serNat_digits i.toNat c (by rw [hser]; simp)
        rw [hser, List.cons_append]
        exact consNeOfHead _ _ (digitNe c 't' hc (by decide))
    have hc3 : ¬ ((serInt i ++ rest).take 5 = ['f', 'a', 'l', 's', 'e']) := by
      unfold serInt
      by_cases hi : i < 0
      · rw [if_pos hi, List.cons_append]
        exact consNeOfHead _ _ (by decide)
      · rw [if_neg hi]
        obtain ⟨c, cs, hser⟩ := List.exists_cons_of_ne_nil (serNat_ne_nil i.toNat)
        have hc : c.isDigit = true := serNat_digits i.toNat c (by rw [hser]; simp)
        rw [hser, List.cons_append]
        exact consNeOfHead _ _ (digitNe c 'f' hc (by decide))
    have hc4 : ¬ ((serInt i ++ rest).head? = some '"') := by
      unfold serInt
      by_cases hi : i < 0
      · rw [if_pos hi, List.cons_append]
        intro h
        injection h with h'
        exact absurd h' (by decide)
      · rw [if_neg hi]
        obtain ⟨c, cs, hser⟩ := List.exists_cons_of_ne_nil (serNat_ne_nil i.toNat)
        have hc : c.isDigit = true := serNat_digits i.toNat c (by rw [hser]; simp)
        rw [hser, List.cons_append]
        intro h
        injection h with h'
        exact digitNe c '"' hc (by decide) h'
    unfold parseVal
    rw [if_neg hc1, if_neg hc2, if_neg hc3, if_neg hc4]
    exact parseIntVal_roundtrip i rest hrest

/-! ### Round trips: objects -/

theorem parseProps_roundtrip (ps : List (String × JsPrim)) :
    ∀ (fuel : Nat) (rest : List Char),
      ps ≠ [] →
      (∀ p ∈ ps, p.2 ≠ .jundef ∧ p.2 ≠ .jnan) →
      ps.length ≤ fuel →
      parseProps fuel (objBody ps ++ '}' :: rest) = some (ps, rest) := by
  induction ps with
  | nil =>
    intro fuel rest hne _ _
    exact absurd rfl hne
  | cons p ps ih =>
    obtain ⟨k, v⟩ := p
    intro fuel rest hne hf hlen
    obtain ⟨hv1, hv2⟩ := hf (k, v) (by simp)
    cases fuel with
    | zero => simp at hlen
    | succ fuel =>
      cases ps with
      | nil =>
        have hsh : objBody [(k, v)] ++ '}' :: rest =
            '"' :: (escapeStr k.data ++ '"' :: ':' :: (serPrim v ++ '}' :: rest)) := by
          simp [objBody, serProp]
        rw [hsh]
        conv_lhs => rw [parseProps.eq_def]
        dsimp only
        have hh : ('"' :: (escapeStr k.data ++ '"' :: ':' ::
            (serPrim v ++ '}' :: rest))).head? = some '"' := rfl
        rw [if_pos hh]
        rw [show ('"' :: (escapeStr k.data ++ '"' :: ':' :: (serPrim v ++ '}' :: rest))).drop 1
          = escapeStr k.data ++ '"' :: (':' :: (serPrim v ++ '}' :: rest)) from rfl]
        rw [parseJString_roundtrip k.data (':' :: (serPrim v ++ '}' :: rest))]
        dsimp only
        have hcolon : (':' :: (serPrim v ++ '}' :: rest)).head? = some ':' := rfl
        rw [if_pos hcolon]
        rw [show List.drop 1 (':' :: (serPrim v ++ '}' :: rest)) =
          serPrim v ++ '}' :: rest from rfl]
        rw [parseVal_roundtrip v ('}' :: rest) hv1 hv2
          (by intro d hd; injection hd with hd'; subst hd'; decide)]
        dsimp only
        have hbrace : ('}' :: rest).head? = some '}' := rfl
        rw [if_pos hbrace]
        rfl
      | cons p2 ps2 =>
        have hsh : objBody ((k, v) :: p2 :: ps2) ++ '}' :: rest =
            '"' :: (escapeStr k.data ++ '"' :: ':' ::
              (serPrim v ++ ',' :: (objBody (p2 :: ps2) ++ '}' :: rest))) := by
          simp [objBody, serProp]
        rw [hsh]
        conv_lhs => rw [parseProps.eq_def]
        dsimp only
        have hh : ('"' :: (escapeStr k.data ++ '"' :: ':' ::
            (serPrim v ++ ',' :: (objBody (p2 :: ps2) ++ '}' :: rest)))).head? =
            some '"' := rfl
        rw [if_pos hh]
        rw [show ('"' :: (escapeStr k.data ++ '"' :: ':' ::
            (serPrim v ++ ',' :: (objBody (p2 :: ps2) ++ '}' :: rest)))).drop 1
          = escapeStr k.data ++ '"' ::
            (':' :: (serPrim v ++ ',' :: (objBody (p2 :: ps2) ++ '}' :: rest))) from rfl]
        rw [parseJString_roundtrip k.data
          (':' :: (serPrim v ++ ',' :: (objBody (p2 :: ps2) ++ '}' :: rest)))]
        dsimp only
        have hcolon : (':' :: (serPrim v ++ ',' ::
            (objBody (p2 :: ps2) ++ '}' :: rest))).head? = some ':' := rfl
        rw [if_pos hcolon]
        rw [show List.drop 1 (':' :: (serPrim v ++ ',' ::
          (objBody (p2 :: ps2) ++ '}' :: rest))) =
          serPrim v ++ ',' :: (objBody (p2 :: ps2) ++ '}' :: rest) from rfl]
        rw [parseVal_roundtrip v (',' :: (objBody (p2 :: ps2) ++ '}' :: rest)) hv1 hv2
          (by intro d hd; injection hd with hd'; subst hd'; decide)]
        dsimp only
        have hcomma : ((',' : Char) :: (objBody (p2 :: ps2) ++ '}' :: rest)).head? =
            some ',' := rfl
        rw [if_pos hcomma]
        rw [show List.drop 1 ((',' : Char) :: (objBody (p2 :: ps2) ++ '}' :: rest)) =
          objBody (p2 :: ps2) ++ '}' :: rest from rfl]
        rw [ih fuel rest (by simp) (fun q hq => hf q (by simp [hq]))
          (by simp only [List.length_cons] at hlen ⊢; omega)]

theorem objBody_length (ps : List (String × JsPrim)) :
    ps.length ≤ (objBody ps).length := by
  induction ps with
  | nil => simp [objBody]
  | cons p ps ih =>
    obtain ⟨k, v⟩ := p
    cases ps with
    | nil => simp [objBody, serProp]
    | cons p2 ps2 =>
      have hser : 0 < (serProp k v).length := by simp [serProp]
      rw [show objBody ((k, v) :: p2 :: ps2) =
        serProp k v ++ ',' :: objBody (p2 :: ps2) from rfl]
      simp only [List.length_cons, List.length_append] at ih ⊢
      omega

theorem parseObj_roundtrip (ps : List (String × JsPrim)) (rest : List Char)
    (hf : ∀ p ∈ ps, p.2 ≠ .jundef ∧ p.2 ≠ .jnan) :
    parseObj (jsonObjChars ps ++ rest) = some (ps, rest) := by
  have hfilter : ps.filter (fun p => !(p.2 = .jundef)) = ps := by
    rw [List.filter_eq_self]
    intro p hp
    simp [(hf p hp).1]
  cases hps : ps with
  | nil =>
    subst hps
    show parseObj (('{' :: objBody [] ++ ['}']) ++ rest) = _
    rw [show ('{' :: objBody [] ++ ['}']) ++ rest = '{' :: '}' :: rest by
      simp [objBody]]
    unfold parseObj
    have hh : List.take 2 ('{' :: '}' :: rest) = ['{', '}'] := rfl
    rw [if_pos hh]
    rfl
  | cons p ps' =>
    obtain ⟨k, v⟩ := p
    subst hps
    rw [show jsonObjChars ((k, v) :: ps') ++ rest =
        '{' :: (objBody ((k, v) :: ps') ++ '}' :: rest) by
      unfold jsonObjChars
      rw [hfilter]
      simp]
    have hhead : ∃ Q, objBody ((k, v) :: ps') = '"' :: Q := by
      cases ps' with
      | nil => exact ⟨_, rfl⟩
      | cons p2 ps2 => exact ⟨_, rfl⟩
    obtain ⟨Q, hQ⟩ := hhead
    have htake : ¬ (('{' :: (objBody ((k, v) :: ps') ++ '}' :: rest)).take 2 =
        ['{', '}']) := by
      rw [hQ]
      intro h
      injection h with _ h2
      injection h2 with h3 _
      exact absurd h3 (by decide)
    unfold parseObj
    have hh : ('{' :: (objBody ((k, v) :: ps') ++ '}' :: rest)).head? = some '{' := rfl
    rw [if_neg htake, if_pos hh]
    rw [show ('{' :: (objBody ((k, v) :: ps') ++ '}' :: rest)).drop 1 =
      objBody ((k, v) :: ps') ++ '}' :: rest from rfl]
    apply parseProps_roundtrip _ _ _ (by simp) hf
    have h1 := objBody_length ((k, v) :: ps')
    simp only [List.length_cons, List.length_append] at h1 ⊢
    omega

/-! ### Permutation and sorting lemmas for the key builder -/

theorem perm_assocGet {α : Type} (k : String) :
    ∀ (l1 l2 : List (String × α)), l1.Perm l2 → (l1.map Prod.fst).Nodup →
      assocGet l1 k = assocGet l2 k := by
  intro l1 l2 h
  induction h with
  | nil => intro _; rfl
  | cons p h ih =>
    intro hnd
    obtain ⟨k0, v0⟩ := p
    simp only [List.map_cons, List.nodup_cons] at hnd
    simp only [assocGet]
    by_cases hk : k0 = k
    · rw [if_pos hk, if_pos hk]
    · rw [if_neg hk, if_neg hk]
      exact ih hnd.2
  | swap x y t =>
    intro hnd
    obtain ⟨ky, vy⟩ := y
    obtain ⟨kx, vx⟩ := x
    simp only [List.map_cons, List.nodup_cons, List.mem_cons] at hnd
    simp only [assocGet]
    by_cases hky : ky = k <;> by_cases hkx : kx = k
    · exact absurd (hky.trans hkx.symm) (fun hh => hnd.1 (Or.inl hh))
    · rw [if_pos hky, if_neg hkx, if_pos hky]
    · rw [if_neg hky, if_pos hkx, if_pos hkx]
    · rw [if_neg hky, if_neg hkx, if_neg hkx, if_neg hky]
  | trans h1 h2 ih1 ih2 =>
    intro hnd
    have hnd2 := ((h1.map Prod.fst).nodup_iff).1 hnd
    exact (ih1 hnd).trans (ih2 hnd2)

theorem charToNat_inj (a b : Char) (h : a.toNat = b.toNat) : a = b := by
  cases a with
  | mk va hva =>
    cases b with
    | mk vb hvb =>
      have hv : va = vb := UInt32.ext h
      subst hv
      rfl

theorem charListLe_total : ∀ (l1 l2 : List Char),
    charListLe l1 l2 = true ∨ charListLe l2 l1 = true
  | [], _ => Or.inl rfl
  | _ :: _, [] => Or.inr rfl
  | a :: as, b :: bs => by
    simp only [charListLe]
    by_cases h : a.toNat = b.toNat
    · rw [if_pos h, if_pos h.symm]
      exact charListLe_total as bs
    · rw [if_neg h, if_neg (fun hh => h hh.symm)]
      rcases Nat.lt_or_ge a.toNat b.toNat with hlt | hge
      · exact Or.inl (decide_eq_true hlt)
      · have hgt : b.toNat < a.toNat := Nat.lt_of_le_of_ne hge (fun hh => h hh.symm)
        exact Or.inr (decide_eq_true hgt)

theorem charListLe_trans : ∀ (l1 l2 l3 : List Char),
    charListLe l1 l2 = true → charListLe l2 l3 = true → charListLe l1 l3 = true
  | [], _, _, _, _ => rfl
  | _ :: _, [], _, h1, _ => by simp [charListLe] at h1
  | _ :: _, _ :: _, [], _, h2 => by simp [charListLe] at h2
  | a :: as, b :: bs, c :: cs, h1, h2 => by
    simp only [charListLe] at h1 h2 ⊢
    by_cases hab : a.toNat = b.toNat <;> by_cases hbc : b.toNat = c.toNat
    · rw [if_pos hab] at h1
      rw [if_pos hbc] at h2
      rw [if_pos (hab.trans hbc)]
      exact charListLe_trans as bs cs h1 h2
    · rw [if_pos hab] at h1
      rw [if_neg hbc] at h2
      have hac : ¬ a.toNat = c.toNat := by rw [hab]; exact hbc
      rw [if_neg hac, hab]
      exact h2
    · rw [if_neg hab] at h1
      have hac : ¬ a.toNat = c.toNat := by rw [← hbc]; exact hab
      rw [if_neg hac, ← hbc]
      exact h1
    · rw [if_neg hab] at h1
      rw [if_neg hbc] at h2
      have hac : a.toNat < c.toNat :=
        Nat.lt_trans (of_decide_eq_true h1) (of_decide_eq_true h2)
      rw [if_neg (Nat.ne_of_lt hac)]
      exact decide_eq_true hac

theorem charListLe_antisymm : ∀ (l1 l2 : List Char),
    charListLe l1 l2 = true → charListLe l2 l1 = true → l1 = l2
  | [], [], _, _ => rfl
  | [], _ :: _, _, h2 => by simp [charListLe] at h2
  | _ :: _, [], h1, _ => by simp [charListLe] at h1
  | a :: as, b :: bs, h1, h2 => by
    simp only [charListLe] at h1 h2
    by_cases hab : a.toNat = b.toNat
    · rw [if_pos hab] at h1
      rw [if_pos hab.symm] at h2
      rw [charToNat_inj a b hab, charListLe_antisymm as bs h1 h2]
    · rw [if_neg hab] at h1
      rw [if_neg (fun hh => hab hh.symm)] at h2
      exact absurd (of_decide_eq_true h1) (Nat.lt_asymm (of_decide_eq_true h2))

instance strLeIsTotal : IsTotal String (fun a b : String => strLe a b = true) :=
  ⟨fun a b => charListLe_total a.data b.data⟩

instance strLeIsTrans : IsTrans String (fun a b : String => strLe a b = true) :=
  ⟨fun a b c h1 h2 => charListLe_trans a.data b.data c.data h1 h2⟩

instance strLeIsAntisymm : IsAntisymm String (fun a b : String => strLe a b = true) :=
  ⟨fun a b h1 h2 => congrArg String.mk (charListLe_antisymm a.data b.data h1 h2)⟩

theorem sortStrings_perm (l : List String) : (sortStrings l).Perm l :=
  List.perm_insertionSort _ l

theorem sortStrings_sorted (l : List String) :
    List.Sorted (fun a b : String => strLe a b = true) (sortStrings l) :=
  List.sorted_insertionSort _ l

theorem sortStrings_eq_of_perm (l1 l2 : List String) (h : l1.Perm l2) :
    sortStrings l1 = sortStrings l2 :=
  List.eq_of_perm_of_sorted
    ((sortStrings_perm l1).trans (h.trans (sortStrings_perm l2).symm))
    (sortStrings_sorted l1) (sortStrings_sorted l2)

theorem canonicalProps_perm (ps1 ps2 : List (String × JsPrim)) (h : ps1.Perm ps2)
    (hnd : (ps1.map Prod.fst).Nodup) :
    canonicalProps ps1 = canonicalProps ps2 := by
  unfold canonicalProps
  rw [sortStrings_eq_of_perm _ _ (h.map Prod.fst)]
  apply List.map_congr_left
  intro k _
  rw [perm_assocGet k ps1 ps2 h hnd]

theorem assocGet_mem {α : Type} (m : List (String × α)) (k : String) (v : α)
    (h : assocGet m k = some v) : (k, v) ∈ m := by
  induction m with
  | nil => simp [assocGet] at h
  | cons p rest ih =>
    obtain ⟨k0, v0⟩ := p
    by_cases hk : k0 = k
    · subst hk
      rw [assocGet, if_pos rfl] at h
      injection h with h'
      subst h'
      simp
    · rw [assocGet, if_neg hk] at h
      exact List.mem_cons_of_mem _ (ih h)

theorem mem_keys_assocGet {α : Type} (m : List (String × α)) (k : String)
    (h : k ∈ m.map Prod.fst) : ∃ v, assocGet m k = some v := by
  have := (assocHas_true_iff m k).2 h
  unfold assocHas at this
  exact Option.isSome_iff_exists.1 this

theorem canonicalProps_faithful (ps : List (String × JsPrim))
    (hf : ∀ p ∈ ps, p.2 ≠ .jundef ∧ p.2 ≠ .jnan) :
    ∀ p ∈ canonicalProps ps, p.2 ≠ .jundef ∧ p.2 ≠ .jnan := by
  intro p hp
  unfold canonicalProps at hp
  rw [List.mem_map] at hp
  obtain ⟨k, hk, rfl⟩ := hp
  have hk' : k ∈ ps.map Prod.fst := (sortStrings_perm _).subset hk
  obtain ⟨v, hv⟩ := mem_keys_assocGet ps k hk'
  rw [hv]
  simp only [Option.getD_some]
  exact hf (k, v) (assocGet_mem ps k v hv)

/-! ## Claim C9: cache key builder -/

/-- C9 counterexample.  The claim states that different parameter values
always produce different keys.  But `JSON.stringify` serializes `NaN` as
`null`, so the parameter sets `{a: NaN}` and `{a: null}` have different
values yet identical keys; similarly a parameter holding `undefined` is
omitted, colliding with the parameter set lacking it. -/
theorem c9_counterexample :
    generateCacheKey "op" [("a", .jnan)] = generateCacheKey "op" [("a", .jnull)] ∧
    JsPrim.jnan ≠ JsPrim.jnull ∧
    generateCacheKey "op" [("a", .jundef)] = generateCacheKey "op" [] := by
  refine ⟨by decide, by decide, by decide⟩

/-- C9 (amended).  The generated key is independent of the order in
which parameters are supplied: permuting a duplicate-free parameter list
leaves the key unchanged.  And for parameter values that `JSON.stringify`
represents faithfully (no `undefined`, no `NaN`), the key determines the
canonical name-sorted parameter list, so two parameter sets with
different values (as finite maps) produce different keys.  Values JSON
cannot distinguish — `NaN` vs `null`, or an `undefined` parameter vs its
absence — collide. -/
theorem c9_key_builder_amended (queryName : String) :
    (∀ (ps1 ps2 : List (String × JsPrim)),
        ps1.Perm ps2 → (ps1.map Prod.fst).Nodup →
        generateCacheKey queryName ps1 = generateCacheKey queryName ps2)
    ∧
    (∀ (ps1 ps2 : List (String × JsPrim)),
        (∀ p ∈ ps1, p.2 ≠ .jundef ∧ p.2 ≠ .jnan) →
        (∀ p ∈ ps2, p.2 ≠ .jundef ∧ p.2 ≠ .jnan) →
        generateCacheKey queryName ps1 = generateCacheKey queryName ps2 →
        canonicalProps ps1 = canonicalProps ps2) := by
  constructor
  · intro ps1 ps2 h hnd
    unfold generateCacheKey
    rw [canonicalProps_perm ps1 ps2 h hnd]
  · intro ps1 ps2 hf1 hf2 hkey
    have hdata : queryName.data ++ ':' :: jsonObjChars (canonicalProps ps1) =
        queryName.data ++ ':' :: jsonObjChars (canonicalProps ps2) :=
      congrArg String.data hkey
    have hcons := List.append_cancel_left hdata
    have hJ : jsonObjChars (canonicalProps ps1) = jsonObjChars (canonicalProps ps2) := by
      injection hcons
    have r1 := parseObj_roundtrip (canonicalProps ps1) [] (canonicalProps_faithful ps1 hf1)
    have r2 := parseObj_roundtrip (canonicalProps ps2) [] (canonicalProps_faithful ps2 hf2)
    rw [List.append_nil] at r1 r2
    rw [hJ] at r1
    have := r1.symm.trans r2
    injection this with h'
    exact congrArg Prod.fst h'

/-- Witness for C9 (amended): the spec's own example
`buildKey("op",{a:1,b:2}) = buildKey("op",{b:2,a:1})`, plus the
injectivity direction applied to the same pair of parameter lists. -/
theorem c9_key_builder_amended_witness :
    generateCacheKey "op" [("a", .jint 1), ("b", .jint 2)] =
      generateCacheKey "op" [("b", .jint 2), ("a", .jint 1)] ∧
    canonicalProps [("a", JsPrim.jint 1), ("b", .jint 2)] =
      canonicalProps [("b", .jint 2), ("a", .jint 1)] :=
  ⟨(c9_key_builder_amended "op").1 _ _ (by decide) (by decide),
   (c9_key_builder_amended "op").2 _ _ (by decide) (by decide) (by decide)⟩

end InMemoria
